import Mathlib

/-!
Verification development for the portgraph repository.

The Python source (src/portgraph/portgraph.py) is shallowly embedded below.
The external collaborators (the `make`-based dependency oracle, the
maintainer lookup, the graphviz renderer, stdout) are modelled as explicit
inputs and logs:

* `Oracle.deps dir kind flavor` models
  `subprocess.Popen(["make", "-C", dir, kind ++ "-depends-list",
  "-DDEPENDS_SHOW_FLAVOR"] ++ (["FLAVOR=" ++ flavor] if flavor))`,
  returning the list of output lines (each already rstripped).
* `Oracle.maintainer dir` models
  `subprocess.Popen(["make", "-C", dir, "maintainer"])` first line, rstripped.
* `St` is the mutable state of one `Portgraph` object together with the
  observable effect logs: `all_ports` is `self.all_ports`; `nodes` records
  every `self.graph.node(...)` call in order; `edges` records every
  `self.graph.edge(...)` call in order; `printed` records every
  `print(ports)` from the verbose branch; `maintainerCalls` records every
  maintainer subprocess invocation (its `-C` argument); `depsCalls` records
  every depends-list subprocess invocation; `addNodeCalls` records every
  invocation of `_add_node` (its argument).

`os.sep` is `"/"` on the target platform.
-/

namespace Portgraph

/-- One `graph.node(name, URL=..., color=..., style=...)` call. -/
structure GNode where
  id : String
  url : Option String
  color : String
  style : String
deriving DecidableEq, Repr

/-- One `graph.edge(src, dst, color=...)` call. -/
structure GEdge where
  src : String
  dst : String
  color : String
deriving DecidableEq, Repr

/-- The external build-description evaluator (subprocess calls to `make`). -/
structure Oracle where
  deps : String → String → Option String → List String
  maintainer : String → String

/-- Mutable state of a `Portgraph` object plus observable effect logs. -/
structure St where
  all_ports : List String
  nodes : List GNode
  edges : List GEdge
  printed : List String
  maintainerCalls : List String
  depsCalls : List (String × String × Option String)
  addNodeCalls : List String
deriving DecidableEq, Repr

/-- The constructor arguments of `Portgraph.__init__` (minus the graph object),
together with the oracle. `www = none` models `www is None`. -/
structure Cfg where
  localbase : String
  port : String
  flavor : Option String
  with_pkg : Bool
  verbose : Bool
  recursion : Int
  www : Option String
  suffix : String
  build : Bool
  run : Bool
  abandoned : Bool
  oracle : Oracle

/-- `self.pkg = "ports-mgmt/pkg"`. -/
def pkg : String := "ports-mgmt/pkg"

/-- Splits a character list at every `'/'`, mirroring Python `str.split("/")`
(which always returns at least one piece). -/
def splitSlash : List Char → List (List Char)
  | [] => [[]]
  | c :: cs =>
    if c = '/' then [] :: splitSlash cs
    else
      match splitSlash cs with
      | [] => [[c]]
      | p :: ps => (c :: p) :: ps

/-- Joins character lists with `'/'`, mirroring Python `"/".join(...)`. -/
def joinSlash : List (List Char) → List Char
  | [] => []
  | [p] => p
  | p :: ps => p ++ '/' :: joinSlash ps

/-- `Portgraph._fullname2port`:
`return os.sep.join(name.split(os.sep)[-2:])` — the last two `/`-separated
segments (the whole string if it has fewer). -/
def fullname2port (name : String) : String :=
  let parts := splitSlash name.toList
  String.mk (joinSlash (parts.drop (parts.length - 2)))

/-- The character-list core of `_flavorname2port`: drop the suffix starting
at the *last* `'@'` (Python `flavorname[:flavorname.rfind("@")]`, the whole
string when there is no `'@'`). -/
def beforeLastAt : List Char → List Char
  | [] => []
  | c :: cs =>
    if ('@' : Char) ∈ cs then c :: beforeLastAt cs
    else if c = '@' then []
    else c :: beforeLastAt cs

/-- `Portgraph._flavorname2port`: "Return a name without the @flavor". -/
def flavorname2port (flavorname : String) : String :=
  String.mk (beforeLastAt flavorname.toList)

/-- The `node_url` computed by `_add_node` (lines 83–85):
`self.www + self._fullname2port(portname) + self.suffix` when a URL was
requested, where `portname` is the flavor-stripped name. -/
def node_url_of (cfg : Cfg) (ports : String) : Option String :=
  if cfg.www.isSome then
    some (cfg.www.getD "" ++ fullname2port (flavorname2port ports) ++ cfg.suffix)
  else none

/-- The `(node_color, node_style)` computed by `_add_node` (lines 87–96):
defaults `("black", "filled")`; when `self.abandoned` is set and the
maintainer of the flavor-stripped port is the placeholder, `("red", "bold")`. -/
def node_color_style (cfg : Cfg) (portname : String) : String × String :=
  if cfg.abandoned then
    if cfg.oracle.maintainer portname = "ports@FreeBSD.org" then ("red", "bold")
    else ("black", "filled")
  else ("black", "filled")

/-- `Portgraph._add_node(self, ports)` (lines 80–106).  The maintainer
subprocess runs exactly when `self.abandoned` is truthy (lines 89–93, before
the suppression check); the node is emitted unless the port is
`ports-mgmt/pkg` and `with_pkg` is off (lines 98–106), with identity
`self._fullname2port(ports)` — the `@flavor` suffix is *not* stripped there. -/
def add_node (cfg : Cfg) (st : St) (ports : String) : St :=
  let portname := flavorname2port ports
  { st with
    addNodeCalls := st.addNodeCalls ++ [ports],
    maintainerCalls :=
      st.maintainerCalls ++ (if cfg.abandoned then [portname] else []),
    nodes :=
      st.nodes ++
        (if fullname2port ports ≠ pkg ∨ (fullname2port ports = pkg ∧ cfg.with_pkg) then
          [⟨fullname2port ports, node_url_of cfg ports,
            (node_color_style cfg portname).1, (node_color_style cfg portname).2⟩]
        else []) }

@[simp] theorem add_node_all_ports (cfg : Cfg) (s : St) (p : String) :
    (add_node cfg s p).all_ports = s.all_ports := rfl

@[simp] theorem add_node_edges (cfg : Cfg) (s : St) (p : String) :
    (add_node cfg s p).edges = s.edges := rfl

@[simp] theorem add_node_printed (cfg : Cfg) (s : St) (p : String) :
    (add_node cfg s p).printed = s.printed := rfl

@[simp] theorem add_node_depsCalls (cfg : Cfg) (s : St) (p : String) :
    (add_node cfg s p).depsCalls = s.depsCalls := rfl

theorem add_node_addNodeCalls (cfg : Cfg) (s : St) (p : String) :
    (add_node cfg s p).addNodeCalls = s.addNodeCalls ++ [p] := rfl

theorem add_node_maintainerCalls (cfg : Cfg) (s : St) (p : String) :
    (add_node cfg s p).maintainerCalls
      = s.maintainerCalls ++ (if cfg.abandoned then [flavorname2port p] else []) := rfl

theorem add_node_nodes (cfg : Cfg) (s : St) (p : String) :
    (add_node cfg s p).nodes
      = s.nodes ++
        (if fullname2port p ≠ pkg ∨ (fullname2port p = pkg ∧ cfg.with_pkg) then
          [⟨fullname2port p, node_url_of cfg p,
            (node_color_style cfg (flavorname2port p)).1,
            (node_color_style cfg (flavorname2port p)).2⟩]
        else []) := rfl

/-- Lines 134–141 of one iteration of the `while True` loop of
`_recurseports`: `self.all_ports.append(ports)`, then
`self.graph.edge(portname, depportname, color=...)` unless the destination
is the suppressed `ports-mgmt/pkg`. -/
def edge_state (cfg : Cfg) (dcolor ports : String) (st : St) (dep_port : String) : St :=
  let st1 : St := { st with all_ports := st.all_ports ++ [ports] }
  if fullname2port dep_port ≠ pkg ∨ (fullname2port dep_port = pkg ∧ cfg.with_pkg) then
    { st1 with
      edges := st1.edges ++ [⟨fullname2port ports, fullname2port dep_port, dcolor⟩] }
  else st1

/-- Lines 143–144: `self._add_node(dep_port)` then
`self.all_ports.append(dep_port)`, executed just before the recursive call. -/
def fresh_state (cfg : Cfg) (st : St) (dep_port : String) : St :=
  let st3 := add_node cfg st dep_port
  { st3 with all_ports := st3.all_ports ++ [dep_port] }

/-- The `while True` line loop of `_recurseports` (lines 130–147), over the
materialised subprocess output `deps`.  `r` is the recursive call
(`self._recurseports(dep_port, flavor, depends_args, max_recurse - 1)` is
`r st dep_port (mr - 1)`), performed only when
`dep_port not in self.all_ports`. -/
def recurseports_loop (cfg : Cfg) (dcolor : String)
    (r : St → String → Int → Option St)
    (ports : String) (mr : Int) : St → List String → Option St
  | st, [] => some st
  | st, dep_port :: rest =>
    let st2 := edge_state cfg dcolor ports st dep_port
    if dep_port ∈ st2.all_ports then
      recurseports_loop cfg dcolor r ports mr st2 rest
    else
      match r (fresh_state cfg st2 dep_port) dep_port (mr - 1) with
      | none => none
      | some st5 => recurseports_loop cfg dcolor r ports mr st5 rest

/-- Lines 112–129 of `_recurseports`: the verbose `print(ports)`, the
`self._add_node(ports)` call, and the depends-list subprocess invocation at
the flavor-stripped directory. -/
def expand_state (cfg : Cfg) (dkind : String) (st : St) (ports : String)
    (flavor : Option String) : St :=
  let st1 : St :=
    if cfg.verbose then { st with printed := st.printed ++ [ports] } else st
  let st2 := add_node cfg st1 ports
  { st2 with
    depsCalls := st2.depsCalls ++ [(flavorname2port ports, dkind, flavor)] }

/-- `Portgraph._recurseports(self, ports, flavor, depends_args, max_recurse)`.
`fuel` is an artefact of the embedding (Python recursion has no such bound);
`none` means the fuel ran out before the Python call would have returned. -/
def recurseports (cfg : Cfg) (dkind dcolor : String) :
    Nat → St → String → Option String → Int → Option St
  | 0, _, _, _, _ => none
  | fuel + 1, st, ports, flavor, mr =>
    if mr = 0 then some st
    else
      recurseports_loop cfg dcolor
        (fun s p m => recurseports cfg dkind dcolor fuel s p flavor m)
        ports mr (expand_state cfg dkind st ports flavor)
        (cfg.oracle.deps (flavorname2port ports) dkind flavor)

@[simp] theorem edge_state_all_ports (cfg : Cfg) (dcolor ports : String)
    (st : St) (dep : String) :
    (edge_state cfg dcolor ports st dep).all_ports = st.all_ports ++ [ports] := by
  unfold edge_state
  split <;> rfl

@[simp] theorem edge_state_nodes (cfg : Cfg) (dcolor ports : String)
    (st : St) (dep : String) :
    (edge_state cfg dcolor ports st dep).nodes = st.nodes := by
  unfold edge_state
  split <;> rfl

theorem edge_state_edges (cfg : Cfg) (dcolor ports : String) (st : St) (dep : String) :
    (edge_state cfg dcolor ports st dep).edges
      = st.edges ++
        (if fullname2port dep ≠ pkg ∨ (fullname2port dep = pkg ∧ cfg.with_pkg) then
          [⟨fullname2port ports, fullname2port dep, dcolor⟩]
        else []) := by
  unfold edge_state
  split <;> simp

@[simp] theorem edge_state_printed (cfg : Cfg) (dcolor ports : String)
    (st : St) (dep : String) :
    (edge_state cfg dcolor ports st dep).printed = st.printed := by
  unfold edge_state
  split <;> rfl

@[simp] theorem edge_state_maintainerCalls (cfg : Cfg) (dcolor ports : String)
    (st : St) (dep : String) :
    (edge_state cfg dcolor ports st dep).maintainerCalls = st.maintainerCalls := by
  unfold edge_state
  split <;> rfl

@[simp] theorem edge_state_depsCalls (cfg : Cfg) (dcolor ports : String)
    (st : St) (dep : String) :
    (edge_state cfg dcolor ports st dep).depsCalls = st.depsCalls := by
  unfold edge_state
  split <;> rfl

@[simp] theorem edge_state_addNodeCalls (cfg : Cfg) (dcolor ports : String)
    (st : St) (dep : String) :
    (edge_state cfg dcolor ports st dep).addNodeCalls = st.addNodeCalls := by
  unfold edge_state
  split <;> rfl

@[simp] theorem fresh_state_all_ports (cfg : Cfg) (st : St) (dep : String) :
    (fresh_state cfg st dep).all_ports = st.all_ports ++ [dep] := rfl

@[simp] theorem fresh_state_edges (cfg : Cfg) (st : St) (dep : String) :
    (fresh_state cfg st dep).edges = st.edges := rfl

@[simp] theorem fresh_state_printed (cfg : Cfg) (st : St) (dep : String) :
    (fresh_state cfg st dep).printed = st.printed := rfl

@[simp] theorem fresh_state_depsCalls (cfg : Cfg) (st : St) (dep : String) :
    (fresh_state cfg st dep).depsCalls = st.depsCalls := rfl

theorem fresh_state_nodes (cfg : Cfg) (st : St) (dep : String) :
    (fresh_state cfg st dep).nodes = (add_node cfg st dep).nodes := rfl

theorem fresh_state_maintainerCalls (cfg : Cfg) (st : St) (dep : String) :
    (fresh_state cfg st dep).maintainerCalls = (add_node cfg st dep).maintainerCalls := rfl

theorem fresh_state_addNodeCalls (cfg : Cfg) (st : St) (dep : String) :
    (fresh_state cfg st dep).addNodeCalls = st.addNodeCalls ++ [dep] := rfl

@[simp] theorem expand_state_all_ports (cfg : Cfg) (dkind : String) (st : St)
    (ports : String) (flavor : Option String) :
    (expand_state cfg dkind st ports flavor).all_ports = st.all_ports := by
  unfold expand_state
  split <;> rfl

@[simp] theorem expand_state_edges (cfg : Cfg) (dkind : String) (st : St)
    (ports : String) (flavor : Option String) :
    (expand_state cfg dkind st ports flavor).edges = st.edges := by
  unfold expand_state
  split <;> rfl

theorem expand_state_printed (cfg : Cfg) (dkind : String) (st : St)
    (ports : String) (flavor : Option String) :
    (expand_state cfg dkind st ports flavor).printed
      = st.printed ++ (if cfg.verbose then [ports] else []) := by
  unfold expand_state
  split <;> simp

theorem expand_state_depsCalls (cfg : Cfg) (dkind : String) (st : St)
    (ports : String) (flavor : Option String) :
    (expand_state cfg dkind st ports flavor).depsCalls
      = st.depsCalls ++ [(flavorname2port ports, dkind, flavor)] := by
  unfold expand_state
  split <;> rfl

theorem expand_state_addNodeCalls (cfg : Cfg) (dkind : String) (st : St)
    (ports : String) (flavor : Option String) :
    (expand_state cfg dkind st ports flavor).addNodeCalls
      = st.addNodeCalls ++ [ports] := by
  unfold expand_state
  split <;> rfl

theorem expand_state_maintainerCalls (cfg : Cfg) (dkind : String) (st : St)
    (ports : String) (flavor : Option String) :
    (expand_state cfg dkind st ports flavor).maintainerCalls
      = st.maintainerCalls ++ (if cfg.abandoned then [flavorname2port ports] else []) := by
  unfold expand_state
  split <;> rfl

theorem expand_state_nodes (cfg : Cfg) (dkind : String) (st : St)
    (ports : String) (flavor : Option String) :
    (expand_state cfg dkind st ports flavor).nodes
      = st.nodes ++
        (if fullname2port ports ≠ pkg ∨ (fullname2port ports = pkg ∧ cfg.with_pkg) then
          [⟨fullname2port ports, node_url_of cfg ports,
            (node_color_style cfg (flavorname2port ports)).1,
            (node_color_style cfg (flavorname2port ports)).2⟩]
        else []) := by
  unfold expand_state
  split <;> rfl

/-- The starting `ports` argument: `os.path.join(self.localbase, self.port)`
after `self.port` has had `"@" + self.flavor` appended when a flavor is set. -/
def rootports (cfg : Cfg) : String :=
  let port :=
    match cfg.flavor with
    | none => cfg.port
    | some fl => cfg.port ++ "@" ++ fl
  cfg.localbase ++ "/" ++ port

/-- The empty state a fresh `Portgraph` object starts from. -/
def initSt : St := ⟨[], [], [], [], [], [], []⟩

/-- `Portgraph.build_graph`: the build pass then the run pass, both on the
same object state (in particular the same `self.all_ports`). -/
def build_graph (cfg : Cfg) (fuel : Nat) : Option St :=
  (if cfg.build then
    recurseports cfg "build" "#009999" fuel initSt (rootports cfg) cfg.flavor cfg.recursion
  else some initSt).bind
    (fun st1 =>
      if cfg.run then
        recurseports cfg "run" "#990000" fuel st1 (rootports cfg) cfg.flavor cfg.recursion
      else some st1)

/-- The per-port body of the batch loop (`graph4port` and everything it
calls), abstracted to its observable outcome: `ok` when the build-and-render
for that port succeeds, `error` when any exception escapes it. -/
def runPorts (work : String → Except String Unit) :
    List String → List String × Option String
  | [] => ([], none)
  | p :: rest =>
    match work p with
    | Except.ok _ =>
      let r := runPorts work rest
      (p :: r.1, r.2)
    | Except.error e => ([p], some e)

/-- The administrative directories skipped by `graph4allports`. -/
def excludedDirs : List String := ["Mk", "distfiles", "Tools", "Templates", "Keywords", "base"]

/-- The `cat/port` enumeration produced by the two nested `os.scandir` loops
of `graph4allports` (`os.path.join(cat.name, port.name)`), with the
administrative directories excluded. -/
def enumPorts (cats : List String) (portsOf : String → List String) : List String :=
  (cats.filter (fun c => !excludedDirs.contains c)).flatMap
    (fun c => (portsOf c).map (fun p => c ++ "/" ++ p))

/-- `graph4allports`: runs `graph4port` on every enumerated `cat/port` in
order, with no exception handling around the per-port call.  Returns the
ports for which `graph4port` was invoked, and the first escaped error. -/
def graph4allports (work : String → Except String Unit)
    (cats : List String) (portsOf : String → List String) :
    List String × Option String :=
  runPorts work (enumPorts cats portsOf)

/-! ### Generic preservation machinery

Every mutation `_recurseports` and `_add_node` perform on the object state is
an append to one of the logs (or to `self.all_ports`).  `loop_preserves` and
`recurseports_preserves` push any binary relation `Q` that is closed under
those primitive steps through the whole traversal. -/

/-- Every field of `t` extends the corresponding field of `s` by a suffix. -/
def Extends (s t : St) : Prop :=
  (∃ l, t.all_ports = s.all_ports ++ l) ∧
  (∃ l, t.nodes = s.nodes ++ l) ∧
  (∃ l, t.edges = s.edges ++ l) ∧
  (∃ l, t.printed = s.printed ++ l) ∧
  (∃ l, t.maintainerCalls = s.maintainerCalls ++ l) ∧
  (∃ l, t.depsCalls = s.depsCalls ++ l) ∧
  (∃ l, t.addNodeCalls = s.addNodeCalls ++ l)

theorem extends_refl (s : St) : Extends s s :=
  ⟨⟨[], by simp⟩, ⟨[], by simp⟩, ⟨[], by simp⟩, ⟨[], by simp⟩,
   ⟨[], by simp⟩, ⟨[], by simp⟩, ⟨[], by simp⟩⟩

theorem extends_trans {a b c : St} (h1 : Extends a b) (h2 : Extends b c) :
    Extends a c := by
  obtain ⟨⟨l1, e1⟩, ⟨l2, e2⟩, ⟨l3, e3⟩, ⟨l4, e4⟩, ⟨l5, e5⟩, ⟨l6, e6⟩, ⟨l7, e7⟩⟩ := h1
  obtain ⟨⟨m1, f1⟩, ⟨m2, f2⟩, ⟨m3, f3⟩, ⟨m4, f4⟩, ⟨m5, f5⟩, ⟨m6, f6⟩, ⟨m7, f7⟩⟩ := h2
  exact ⟨⟨l1 ++ m1, by simp [f1, e1]⟩, ⟨l2 ++ m2, by simp [f2, e2]⟩,
    ⟨l3 ++ m3, by simp [f3, e3]⟩, ⟨l4 ++ m4, by simp [f4, e4]⟩,
    ⟨l5 ++ m5, by simp [f5, e5]⟩, ⟨l6 ++ m6, by simp [f6, e6]⟩,
    ⟨l7 ++ m7, by simp [f7, e7]⟩⟩

theorem extends_add_node (cfg : Cfg) (s : St) (p : String) :
    Extends s (add_node cfg s p) :=
  ⟨⟨[], by simp⟩, ⟨_, add_node_nodes cfg s p⟩, ⟨[], by simp⟩, ⟨[], by simp⟩,
   ⟨_, add_node_maintainerCalls cfg s p⟩, ⟨[], by simp⟩,
   ⟨_, add_node_addNodeCalls cfg s p⟩⟩

theorem loop_preserves (cfg : Cfg) (Q : St → St → Prop)
    (hrefl : ∀ s, Q s s)
    (htrans : ∀ a b c, Q a b → Q b c → Q a c)
    (hports : ∀ s x, Q s { s with all_ports := s.all_ports ++ [x] })
    (hedge : ∀ s pn dn col, (dn ≠ pkg ∨ (dn = pkg ∧ cfg.with_pkg)) →
      Q s { s with edges := s.edges ++ [⟨pn, dn, col⟩] })
    (haddnode : ∀ s p, Q s (add_node cfg s p))
    (dcolor : String) (r : St → String → Int → Option St)
    (hr : ∀ s p m s', r s p m = some s' → Q s s')
    (ports : String) (mr : Int) :
    ∀ deps st st', recurseports_loop cfg dcolor r ports mr st deps = some st' → Q st st' := by
  have hQedge : ∀ s dep, Q s (edge_state cfg dcolor ports s dep) := by
    intro s dep
    unfold edge_state
    split
    · rename_i hguard
      exact htrans _ _ _ (hports s ports)
        (hedge _ (fullname2port ports) (fullname2port dep) dcolor hguard)
    · exact hports s ports
  have hQfresh : ∀ s dep, Q s (fresh_state cfg s dep) := by
    intro s dep
    exact htrans _ _ _ (haddnode s dep) (hports _ dep)
  intro deps
  induction deps with
  | nil =>
    intro st st' h
    simp only [recurseports_loop] at h
    cases h
    exact hrefl st
  | cons dep rest ih =>
    intro st st' h
    simp only [recurseports_loop] at h
    split at h
    · exact htrans _ _ _ (hQedge st dep) (ih _ _ h)
    · split at h
      · exact Option.noConfusion h
      · rename_i st5 hst5
        refine htrans _ _ _ (hQedge st dep) ?_
        refine htrans _ _ _ (hQfresh _ dep) ?_
        exact htrans _ _ _ (hr _ _ _ _ hst5) (ih _ _ h)

theorem recurseports_preserves (cfg : Cfg) (Q : St → St → Prop)
    (hrefl : ∀ s, Q s s)
    (htrans : ∀ a b c, Q a b → Q b c → Q a c)
    (hports : ∀ s x, Q s { s with all_ports := s.all_ports ++ [x] })
    (hedge : ∀ s pn dn col, (dn ≠ pkg ∨ (dn = pkg ∧ cfg.with_pkg)) →
      Q s { s with edges := s.edges ++ [⟨pn, dn, col⟩] })
    (haddnode : ∀ s p, Q s (add_node cfg s p))
    (hprint : ∀ s x, Q s { s with printed := s.printed ++ [x] })
    (hdeps : ∀ s d, Q s { s with depsCalls := s.depsCalls ++ [d] })
    (dkind dcolor : String) :
    ∀ fuel st ports flavor mr st',
      recurseports cfg dkind dcolor fuel st ports flavor mr = some st' → Q st st' := by
  intro fuel
  induction fuel with
  | zero =>
    intro st ports flavor mr st' h
    exact absurd h (by simp [recurseports])
  | succ f ih =>
    intro st ports flavor mr st' h
    simp only [recurseports] at h
    split at h
    · cases h
      exact hrefl st
    · have hloop := loop_preserves cfg Q hrefl htrans hports hedge haddnode dcolor
        (fun s p m => recurseports cfg dkind dcolor f s p flavor m)
        (fun s p m s' hs => ih s p flavor m s' hs) ports mr _ _ _ h
      refine htrans _ _ _ ?_ hloop
      unfold expand_state
      split
      · exact htrans _ _ _ (hprint st ports)
          (htrans _ _ _ (haddnode _ ports) (hdeps _ _))
      · exact htrans _ _ _ (haddnode st ports) (hdeps _ _)

theorem recurseports_extends (cfg : Cfg) (dkind dcolor : String)
    (fuel : Nat) (st : St) (ports : String) (flavor : Option String) (mr : Int)
    (st' : St) (h : recurseports cfg dkind dcolor fuel st ports flavor mr = some st') :
    Extends st st' := by
  refine recurseports_preserves cfg Extends extends_refl
    (fun a b c => extends_trans) ?_ ?_ (extends_add_node cfg) ?_ ?_
    dkind dcolor fuel st ports flavor mr st' h
  · exact fun s x => ⟨⟨_, rfl⟩, ⟨[], by simp⟩, ⟨[], by simp⟩, ⟨[], by simp⟩,
      ⟨[], by simp⟩, ⟨[], by simp⟩, ⟨[], by simp⟩⟩
  · exact fun s pn dn col _ => ⟨⟨[], by simp⟩, ⟨[], by simp⟩, ⟨_, rfl⟩, ⟨[], by simp⟩,
      ⟨[], by simp⟩, ⟨[], by simp⟩, ⟨[], by simp⟩⟩
  · exact fun s x => ⟨⟨[], by simp⟩, ⟨[], by simp⟩, ⟨[], by simp⟩, ⟨_, rfl⟩,
      ⟨[], by simp⟩, ⟨[], by simp⟩, ⟨[], by simp⟩⟩
  · exact fun s d => ⟨⟨[], by simp⟩, ⟨[], by simp⟩, ⟨[], by simp⟩, ⟨[], by simp⟩,
      ⟨[], by simp⟩, ⟨_, rfl⟩, ⟨[], by simp⟩⟩

theorem loop_extends (cfg : Cfg) (dcolor : String)
    (r : St → String → Int → Option St)
    (hr : ∀ s p m s', r s p m = some s' → Extends s s')
    (ports : String) (mr : Int) (deps : List String) (st st' : St)
    (h : recurseports_loop cfg dcolor r ports mr st deps = some st') :
    Extends st st' := by
  refine loop_preserves cfg Extends extends_refl
    (fun a b c => extends_trans) ?_ ?_ (extends_add_node cfg) dcolor r hr ports mr deps st st' h
  · exact fun s x => ⟨⟨_, rfl⟩, ⟨[], by simp⟩, ⟨[], by simp⟩, ⟨[], by simp⟩,
      ⟨[], by simp⟩, ⟨[], by simp⟩, ⟨[], by simp⟩⟩
  · exact fun s pn dn col _ => ⟨⟨[], by simp⟩, ⟨[], by simp⟩, ⟨_, rfl⟩, ⟨[], by simp⟩,
      ⟨[], by simp⟩, ⟨[], by simp⟩, ⟨[], by simp⟩⟩

theorem extends_mem_all_ports {s t : St} (h : Extends s t) {x : String}
    (hx : x ∈ s.all_ports) : x ∈ t.all_ports := by
  obtain ⟨⟨l, hl⟩, -⟩ := h
  rw [hl]
  exact List.mem_append_left _ hx

/-! ### Termination via the visited list

The number of names of a finite universe `U` not yet recorded in
`self.all_ports` strictly decreases at every recursive call, because the
code appends `dep_port` to `self.all_ports` (line 144) right before
recursing and only recurses when `dep_port not in self.all_ports`
(line 142). -/

/-- How many distinct names of `U` are not yet recorded in `l`. -/
def freshCount (U l : List String) : Nat :=
  (U.toFinset \ l.toFinset).card

theorem freshCount_le (U : List String) {a b : List String}
    (h : ∀ x ∈ a, x ∈ b) : freshCount U b ≤ freshCount U a := by
  apply Finset.card_le_card
  refine Finset.sdiff_subset_sdiff (Finset.Subset.refl _) ?_
  intro x hx
  rw [List.mem_toFinset] at hx ⊢
  exact h x hx

theorem freshCount_append_le (U l m : List String) :
    freshCount U (l ++ m) ≤ freshCount U l :=
  freshCount_le U (fun _ hx => List.mem_append_left _ hx)

theorem freshCount_lt (U l : List String) (d : String)
    (hdU : d ∈ U) (hdl : d ∉ l) :
    freshCount U (l ++ [d]) < freshCount U l := by
  apply Finset.card_lt_card
  rw [Finset.ssubset_def]
  constructor
  · refine Finset.sdiff_subset_sdiff (Finset.Subset.refl _) ?_
    intro x hx
    rw [List.mem_toFinset] at hx ⊢
    exact List.mem_append_left _ hx
  · intro hsub
    have hd : d ∈ U.toFinset \ l.toFinset := by
      rw [Finset.mem_sdiff, List.mem_toFinset, List.mem_toFinset]
      exact ⟨hdU, hdl⟩
    have hd2 := hsub hd
    rw [Finset.mem_sdiff, List.mem_toFinset, List.mem_toFinset] at hd2
    exact hd2.2 (List.mem_append_right _ (List.mem_singleton.mpr rfl))

theorem loop_total (cfg : Cfg) (U : List String) (dcolor : String)
    (r : St → String → Int → Option St) (f : Nat)
    (hr : ∀ s p m, freshCount U s.all_ports < f →
      ∃ s', r s p m = some s' ∧ ∀ x ∈ s.all_ports, x ∈ s'.all_ports)
    (ports : String) (mr : Int) :
    ∀ deps, (∀ d ∈ deps, d ∈ U) → ∀ st, freshCount U st.all_ports ≤ f →
      ∃ st', recurseports_loop cfg dcolor r ports mr st deps = some st' ∧
        ∀ x ∈ st.all_ports, x ∈ st'.all_ports := by
  intro deps
  induction deps with
  | nil =>
    intro _ st _
    exact ⟨st, rfl, fun x hx => hx⟩
  | cons dep rest ih =>
    intro hdeps st hfc
    simp only [recurseports_loop]
    split
    · obtain ⟨st', h', hmono⟩ :=
        ih (fun d hd => hdeps d (List.mem_cons_of_mem _ hd))
          (edge_state cfg dcolor ports st dep)
          (by
            rw [edge_state_all_ports]
            exact le_trans (freshCount_append_le U _ _) hfc)
      exact ⟨st', h', fun x hx =>
        hmono x (by rw [edge_state_all_ports]; exact List.mem_append_left _ hx)⟩
    · rename_i hmem
      rw [edge_state_all_ports] at hmem
      have hlt : freshCount U
          (fresh_state cfg (edge_state cfg dcolor ports st dep) dep).all_ports < f := by
        rw [fresh_state_all_ports, edge_state_all_ports]
        calc freshCount U (st.all_ports ++ [ports] ++ [dep])
            < freshCount U (st.all_ports ++ [ports]) :=
              freshCount_lt U _ dep (hdeps dep (List.mem_cons_self _ _)) hmem
          _ ≤ freshCount U st.all_ports := freshCount_append_le U _ _
          _ ≤ f := hfc
      obtain ⟨st5, hst5, hmono5⟩ :=
        hr (fresh_state cfg (edge_state cfg dcolor ports st dep) dep) dep (mr - 1) hlt
      rw [hst5]
      obtain ⟨st', h', hmono'⟩ :=
        ih (fun d hd => hdeps d (List.mem_cons_of_mem _ hd)) st5
          (le_trans (freshCount_le U hmono5) (le_of_lt hlt))
      refine ⟨st', h', fun x hx => hmono' x (hmono5 x ?_)⟩
      rw [fresh_state_all_ports, edge_state_all_ports]
      exact List.mem_append_left _ (List.mem_append_left _ hx)

theorem recurseports_total (cfg : Cfg) (U : List String)
    (hU : ∀ p k fl, ∀ d ∈ cfg.oracle.deps p k fl, d ∈ U)
    (dkind dcolor : String) :
    ∀ fuel st ports flavor mr, freshCount U st.all_ports < fuel →
      ∃ st', recurseports cfg dkind dcolor fuel st ports flavor mr = some st' ∧
        ∀ x ∈ st.all_ports, x ∈ st'.all_ports := by
  intro fuel
  induction fuel with
  | zero =>
    intro st ports flavor mr h
    exact absurd h (Nat.not_lt_zero _)
  | succ f ih =>
    intro st ports flavor mr hfc
    simp only [recurseports]
    split
    · exact ⟨st, rfl, fun x hx => hx⟩
    · obtain ⟨st', h', hmono⟩ := loop_total cfg U dcolor
        (fun s p m => recurseports cfg dkind dcolor f s p flavor m) f
        (fun s p m hlt => ih s p flavor m hlt) ports mr
        (cfg.oracle.deps (flavorname2port ports) dkind flavor)
        (hU _ _ _) (expand_state cfg dkind st ports flavor)
        (by rw [expand_state_all_ports]; exact Nat.lt_succ_iff.mp hfc)
      exact ⟨st', h', fun x hx =>
        hmono x (by rw [expand_state_all_ports]; exact hx)⟩

/-! ### Suppression of the privileged package -/

/-- Between states `s` and `t`, every new node has an identifier other than
`ports-mgmt/pkg`, and every new edge has a destination other than
`ports-mgmt/pkg`. -/
def PkgFree (s t : St) : Prop :=
  (∃ l, t.nodes = s.nodes ++ l ∧ ∀ n ∈ l, n.id ≠ pkg) ∧
  (∃ l, t.edges = s.edges ++ l ∧ ∀ e ∈ l, e.dst ≠ pkg)

theorem pkgfree_refl (s : St) : PkgFree s s :=
  ⟨⟨[], by simp, by simp⟩, ⟨[], by simp, by simp⟩⟩

theorem pkgfree_trans {a b c : St} (h1 : PkgFree a b) (h2 : PkgFree b c) :
    PkgFree a c := by
  obtain ⟨⟨l1, e1, p1⟩, ⟨l2, e2, p2⟩⟩ := h1
  obtain ⟨⟨m1, f1, q1⟩, ⟨m2, f2, q2⟩⟩ := h2
  refine ⟨⟨l1 ++ m1, by simp [f1, e1], ?_⟩, ⟨l2 ++ m2, by simp [f2, e2], ?_⟩⟩
  · intro n hn
    rcases List.mem_append.mp hn with h | h
    exacts [p1 n h, q1 n h]
  · intro e he
    rcases List.mem_append.mp he with h | h
    exacts [p2 e h, q2 e h]

theorem pkgfree_recurseports (cfg : Cfg) (hwp : cfg.with_pkg = false)
    (dkind dcolor : String) (fuel : Nat) (st : St) (ports : String)
    (flavor : Option String) (mr : Int) (st' : St)
    (h : recurseports cfg dkind dcolor fuel st ports flavor mr = some st') :
    PkgFree st st' := by
  refine recurseports_preserves cfg PkgFree pkgfree_refl
    (fun a b c => pkgfree_trans) ?_ ?_ ?_ ?_ ?_
    dkind dcolor fuel st ports flavor mr st' h
  · exact fun s x => ⟨⟨[], by simp, by simp⟩, ⟨[], by simp, by simp⟩⟩
  · intro s pn dn col hg
    refine ⟨⟨[], by simp, by simp⟩, ⟨[⟨pn, dn, col⟩], rfl, ?_⟩⟩
    intro e he
    rw [List.mem_singleton] at he
    subst he
    rcases hg with h | ⟨h1, h2⟩
    · exact h
    · rw [hwp] at h2
      exact absurd h2 (by simp)
  · intro s p
    refine ⟨⟨_, add_node_nodes cfg s p, ?_⟩, ⟨[], by simp, by simp⟩⟩
    intro n hn
    by_cases hgd : fullname2port p ≠ pkg ∨ (fullname2port p = pkg ∧ cfg.with_pkg)
    · rw [if_pos hgd] at hn
      rw [List.mem_singleton] at hn
      subst hn
      rcases hgd with h | ⟨h1, h2⟩
      · exact h
      · rw [hwp] at h2
        exact absurd h2 (by simp)
    · rw [if_neg hgd] at hn
      exact absurd hn (List.not_mem_nil _)
  · exact fun s x => ⟨⟨[], by simp, by simp⟩, ⟨[], by simp, by simp⟩⟩
  · exact fun s d => ⟨⟨[], by simp, by simp⟩, ⟨[], by simp, by simp⟩⟩

theorem pkgfree_build_graph (cfg : Cfg) (hwp : cfg.with_pkg = false)
    (fuel : Nat) (st' : St) (h : build_graph cfg fuel = some st') :
    PkgFree initSt st' := by
  unfold build_graph at h
  rw [Option.bind_eq_some] at h
  obtain ⟨st1, h1, h2⟩ := h
  have hfst : PkgFree initSt st1 := by
    split at h1
    · exact pkgfree_recurseports cfg hwp _ _ _ _ _ _ _ _ h1
    · cases h1
      exact pkgfree_refl _
  have hsnd : PkgFree st1 st' := by
    split at h2
    · exact pkgfree_recurseports cfg hwp _ _ _ _ _ _ _ _ h2
    · cases h2
      exact pkgfree_refl _
  exact pkgfree_trans hfst hsnd

/-! ### Concrete configurations used by counterexamples and witnesses -/

/-- A cyclic two-package collection: `a/b` and `c/d` depend on each other. -/
def oracleA : Oracle where
  deps := fun dir _ _ =>
    if dir = "/p/a/b" then ["/p/c/d"]
    else if dir = "/p/c/d" then ["/p/a/b"]
    else []
  maintainer := fun _ => "m"

def cfgA : Cfg where
  localbase := "/p"
  port := "a/b"
  flavor := none
  with_pkg := false
  verbose := false
  recursion := -1
  www := none
  suffix := ""
  build := true
  run := false
  abandoned := false
  oracle := oracleA

/-- Every name the cyclic oracle can ever return. -/
def UA : List String := ["/p/a/b", "/p/c/d"]

/-- `a/b` depends on the privileged `ports-mgmt/pkg`, which itself depends
on `c/d`. -/
def oracleC2 : Oracle where
  deps := fun dir _ _ =>
    if dir = "/usr/ports/a/b" then ["/usr/ports/ports-mgmt/pkg"]
    else if dir = "/usr/ports/ports-mgmt/pkg" then ["/usr/ports/c/d"]
    else []
  maintainer := fun _ => "someone@example.org"

def cfgC2 : Cfg where
  localbase := "/usr/ports"
  port := "a/b"
  flavor := none
  with_pkg := false
  verbose := false
  recursion := -1
  www := none
  suffix := ""
  build := true
  run := false
  abandoned := false
  oracle := oracleC2

def cfgC5 : Cfg := { cfgC2 with recursion := 0 }

/-! ### Claim C1 -/

/-- C1: for every finite package collection (all oracle answers drawn from a
finite list `U`), even with dependency cycles, and with the unbounded depth
sentinel `maxDepth = -1`, `build_graph` / `_recurseports` terminates: a
name already recorded in `self.all_ports` is never re-expanded, so the
number of expansions — and hence the fuel needed by the embedding — is
bounded by the number of distinct names (`U.toFinset.card`) plus one for
the root. -/
theorem claim1_termination_bounded (cfg : Cfg) (U : List String)
    (hU : ∀ p k fl, ∀ d ∈ cfg.oracle.deps p k fl, d ∈ U)
    (_hrec : cfg.recursion = -1) :
    (build_graph cfg (U.toFinset.card + 1)).isSome := by
  have hinit : ∀ l : List String, freshCount U l ≤ U.toFinset.card :=
    fun l => Finset.card_le_card Finset.sdiff_subset
  unfold build_graph
  split
  · obtain ⟨st1, h1, -⟩ := recurseports_total cfg U hU "build" "#009999"
      (U.toFinset.card + 1) initSt (rootports cfg) cfg.flavor cfg.recursion
      (Nat.lt_succ_of_le (hinit _))
    rw [h1, Option.some_bind]
    split
    · obtain ⟨st2, h2, -⟩ := recurseports_total cfg U hU "run" "#990000"
        (U.toFinset.card + 1) st1 (rootports cfg) cfg.flavor cfg.recursion
        (Nat.lt_succ_of_le (hinit _))
      rw [h2]
      rfl
    · rfl
  · rw [Option.some_bind]
    split
    · obtain ⟨st2, h2, -⟩ := recurseports_total cfg U hU "run" "#990000"
        (U.toFinset.card + 1) initSt (rootports cfg) cfg.flavor cfg.recursion
        (Nat.lt_succ_of_le (hinit _))
      rw [h2]
      rfl
    · rfl

/-- Witness for C1: the two-package cyclic collection terminates with fuel
`2 + 1`. -/
theorem claim1_witness : (build_graph cfgA (UA.toFinset.card + 1)).isSome := by
  refine claim1_termination_bounded cfgA UA ?_ rfl
  intro p k fl d hd
  have hd2 : d ∈ (if p = "/p/a/b" then ["/p/c/d"]
      else if p = "/p/c/d" then ["/p/a/b"] else []) := hd
  show d ∈ UA
  split at hd2
  · rw [List.mem_singleton] at hd2
    subst hd2
    decide
  · split at hd2
    · rw [List.mem_singleton] at hd2
      subst hd2
      decide
    · exact absurd hd2 (List.not_mem_nil _)

/-! ### Claim C2 -/

/-- C2 fails as stated: with `with_pkg = false` the suppressed
`ports-mgmt/pkg` *can* appear as the source endpoint of an edge, because
the traversal still recurses into a suppressed dependency (lines 142–145
have no pkg check) and the edge guard (lines 138–140) checks only the
destination.  Concretely, with `a/b → ports-mgmt/pkg → c/d` the resulting
graph contains exactly the edge `ports-mgmt/pkg → c/d`. -/
theorem claim2_counterexample :
    cfgC2.with_pkg = false ∧
    (build_graph cfgC2 5).map St.edges = some [⟨pkg, "c/d", "#009999"⟩] := by
  decide

/-- C2 (amended): when `with_pkg` is false the privileged package never
appears as a node identifier nor as the destination endpoint of any edge,
at any depth; it can however still appear as the source endpoint of edges
emitted while the traversal expands the suppressed package itself. -/
theorem claim2_amended_no_pkg_node_or_dst (cfg : Cfg)
    (hwp : cfg.with_pkg = false) (fuel : Nat) (st' : St)
    (h : build_graph cfg fuel = some st') :
    (∀ n ∈ st'.nodes, n.id ≠ pkg) ∧ (∀ e ∈ st'.edges, e.dst ≠ pkg) := by
  obtain ⟨⟨l1, e1, p1⟩, ⟨l2, e2, p2⟩⟩ := pkgfree_build_graph cfg hwp fuel st' h
  constructor
  · intro n hn
    rw [e1] at hn
    exact p1 n (by simpa [initSt] using hn)
  · intro e he
    rw [e2] at he
    exact p2 e (by simpa [initSt] using he)

/-- Witness for the amended C2, on the concrete `a/b → pkg → c/d` oracle. -/
theorem claim2_witness :
    (∀ n ∈ ((build_graph cfgC2 5).getD initSt).nodes, n.id ≠ pkg) ∧
    (∀ e ∈ ((build_graph cfgC2 5).getD initSt).edges, e.dst ≠ pkg) :=
  claim2_amended_no_pkg_node_or_dst cfgC2 rfl 5
    ((build_graph cfgC2 5).getD initSt) (by decide)

/-! ### Claim C5 -/

/-- C5 fails as stated: with `maxDepth = 0` the traversal returns *before*
emitting the root's node (`max_recurse == 0` is checked at line 109, before
the `_add_node` call at line 117), so the graph is empty — it does not
contain the root node, although the root is not suppressed. -/
theorem claim5_counterexample :
    fullname2port (rootports cfgC5) ≠ pkg ∧
    (build_graph cfgC5 5).map St.nodes = some [] ∧
    (build_graph cfgC5 5).map St.edges = some [] := by
  decide

/-- C5 (amended): for every traversal with `maxDepth = 0`, the resulting
graph contains no nodes and no edges at all — the state is returned
unchanged. -/
theorem claim5_amended_empty_graph (cfg : Cfg) (hrec : cfg.recursion = 0)
    (fuel : Nat) : build_graph cfg (fuel + 1) = some initSt := by
  have hstep : ∀ (dkind dcolor : String) (st : St),
      recurseports cfg dkind dcolor (fuel + 1) st (rootports cfg) cfg.flavor
        cfg.recursion = some st := by
    intro dkind dcolor st
    simp [recurseports, hrec]
  unfold build_graph
  split
  · rw [hstep, Option.some_bind]
    split
    · exact hstep _ _ _
    · rfl
  · rw [Option.some_bind]
    split
    · exact hstep _ _ _
    · rfl

/-- Witness for the amended C5. -/
theorem claim5_witness : build_graph cfgC5 (4 + 1) = some initSt :=
  claim5_amended_empty_graph cfgC5 rfl 4

/-! ### Claim C6 -/

theorem beforeLastAt_of_not_mem {l : List Char} (h : ('@' : Char) ∉ l) :
    beforeLastAt l = l := by
  induction l with
  | nil => rfl
  | cons c cs ih =>
    have hc : ¬c = '@' := fun hc => h (hc ▸ List.mem_cons_self _ _)
    have hcs : ('@' : Char) ∉ cs := fun hm => h (List.mem_cons_of_mem _ hm)
    simp only [beforeLastAt]
    rw [if_neg hcs, if_neg hc, ih hcs]

theorem count_beforeLastAt {l : List Char} (h : ('@' : Char) ∈ l) :
    (beforeLastAt l).count '@' + 1 = l.count '@' := by
  induction l with
  | nil => exact absurd h (List.not_mem_nil _)
  | cons c cs ih =>
    by_cases hcs : ('@' : Char) ∈ cs
    · simp only [beforeLastAt, if_pos hcs]
      simp only [List.count_cons]
      have h2 := ih hcs
      omega
    · have hc : c = '@' := by
        rcases List.mem_cons.mp h with h1 | h1
        · exact h1.symm
        · exact absurd h1 hcs
      simp only [beforeLastAt, if_neg hcs, if_pos hc]
      simp [List.count_cons, hc, List.count_eq_zero.mpr hcs]

/-- C6 fails as stated over arbitrary input strings: `_flavorname2port`
truncates at the *last* `@` (`rfind`), so a string with two `@` characters
is not a fixed point after one strip: `a@b@c ↦ a@b ↦ a`. -/
theorem claim6_counterexample :
    flavorname2port (flavorname2port "a@b@c") ≠ flavorname2port "a@b@c" := by
  decide

/-- C6 (amended): the flavor-stripping canonicalisation is idempotent for
every input containing at most one `@` — in particular for every
well-formed FlavoredName `category/name[@flavor]` whose flavor contains no
`@`.  (For inputs with two or more `@` characters idempotence fails, see
the counterexample.) -/
theorem claim6_amended_idempotent_one_at (s : String)
    (h : s.toList.count '@' ≤ 1) :
    flavorname2port (flavorname2port s) = flavorname2port s := by
  unfold flavorname2port
  show String.mk (beforeLastAt (beforeLastAt s.toList)) = String.mk (beforeLastAt s.toList)
  by_cases hm : ('@' : Char) ∈ s.toList
  · have h1 := count_beforeLastAt hm
    have h0 : (beforeLastAt s.toList).count '@' = 0 := by omega
    have hnm : ('@' : Char) ∉ beforeLastAt s.toList := List.count_eq_zero.mp h0
    rw [beforeLastAt_of_not_mem hnm]
  · rw [beforeLastAt_of_not_mem hm, beforeLastAt_of_not_mem hm]

/-- Witness for the amended C6 on a well-formed flavored name. -/
theorem claim6_witness :
    ("editors/vim@tiny".toList.count '@' ≤ 1) ∧
    flavorname2port (flavorname2port "editors/vim@tiny")
      = flavorname2port "editors/vim@tiny" :=
  ⟨by decide, claim6_amended_idempotent_one_at "editors/vim@tiny" (by decide)⟩

/-! ### Claim C7 -/

/-- Whether the per-port build-and-render succeeded. -/
def work_ok (work : String → Except String Unit) (p : String) : Bool :=
  match work p with
  | Except.ok _ => true
  | Except.error _ => false

theorem runPorts_first_failure (work : String → Except String Unit) :
    ∀ ps, runPorts work ps =
      (ps.takeWhile (work_ok work) ++ (ps.dropWhile (work_ok work)).take 1,
       (ps.dropWhile (work_ok work)).head?.bind
         (fun p => match work p with | Except.ok _ => none | Except.error e => some e)) := by
  intro ps
  induction ps with
  | nil => rfl
  | cons p rest ih =>
    cases hw : work p with
    | ok u =>
      have hok : work_ok work p = true := by simp [work_ok, hw]
      simp [runPorts, hw, ih, hok, List.takeWhile_cons, List.dropWhile_cons]
    | error e =>
      have hok : work_ok work p = false := by simp [work_ok, hw]
      simp [runPorts, hw, hok, List.takeWhile_cons, List.dropWhile_cons]

/-- The per-port work that fails on `a/x` (say, its render step raises). -/
def batchWork : String → Except String Unit :=
  fun p => if p = "a/x" then Except.error "render failed" else Except.ok ()

/-- C7 fails as stated: `graph4allports` has no exception handling around
the per-port `graph4port` call, so the first failure aborts the whole
batch.  With ports `a/x` (failing) and `a/y`, only `a/x` is ever
processed; `a/y` is never reached. -/
theorem claim7_counterexample :
    graph4allports batchWork ["a"] (fun _ => ["x", "y"])
        = (["a/x"], some "render failed") ∧
    "a/y" ∉ (graph4allports batchWork ["a"] (fun _ => ["x", "y"])).1 := by
  decide

/-- C7 (amended): batch mode processes the enumerated packages strictly in
order up to and including the first package whose build-and-render fails,
and then stops: the error escapes `graph4allports` and every remaining
package is left unprocessed.  (Only when no package fails is the whole
enumeration processed.) -/
theorem claim7_amended_first_failure_aborts (work : String → Except String Unit)
    (cats : List String) (portsOf : String → List String) :
    graph4allports work cats portsOf =
      ((enumPorts cats portsOf).takeWhile (work_ok work) ++
        ((enumPorts cats portsOf).dropWhile (work_ok work)).take 1,
       ((enumPorts cats portsOf).dropWhile (work_ok work)).head?.bind
         (fun p => match work p with | Except.ok _ => none | Except.error e => some e)) :=
  runPorts_first_failure work (enumPorts cats portsOf)

/-! ### Edge multiplicity -/

theorem extends_edges_count_le {s t : St} (h : Extends s t) (e : GEdge) :
    s.edges.count e ≤ t.edges.count e := by
  obtain ⟨-, -, ⟨l, hl⟩, -⟩ := h
  rw [hl, List.count_append]
  exact Nat.le_add_right _ _

theorem edge_state_count_ge (cfg : Cfg) (dcolor ports : String) (st : St)
    (d dep : String) (hne : fullname2port dep ≠ pkg ∨ cfg.with_pkg = true) :
    st.edges.count ⟨fullname2port ports, fullname2port dep, dcolor⟩
        + (if d = dep then 1 else 0)
      ≤ (edge_state cfg dcolor ports st d).edges.count
          ⟨fullname2port ports, fullname2port dep, dcolor⟩ := by
  rw [edge_state_edges, List.count_append]
  by_cases hd : d = dep
  · subst hd
    have hguard : fullname2port d ≠ pkg ∨ (fullname2port d = pkg ∧ cfg.with_pkg) := by
      rcases hne with h | h
      · exact Or.inl h
      · by_cases hp : fullname2port d = pkg
        · exact Or.inr ⟨hp, h⟩
        · exact Or.inl hp
    rw [if_pos hguard, if_pos rfl]
    simp
  · rw [if_neg hd]
    exact Nat.add_le_add_left (Nat.zero_le _) _

theorem loop_edge_count (cfg : Cfg) (dcolor : String)
    (r : St → String → Int → Option St)
    (hr : ∀ s p m s', r s p m = some s' → Extends s s')
    (ports : String) (mr : Int) (dep : String)
    (hne : fullname2port dep ≠ pkg ∨ cfg.with_pkg = true) :
    ∀ deps st st', recurseports_loop cfg dcolor r ports mr st deps = some st' →
      st.edges.count ⟨fullname2port ports, fullname2port dep, dcolor⟩ + deps.count dep
        ≤ st'.edges.count ⟨fullname2port ports, fullname2port dep, dcolor⟩ := by
  intro deps
  induction deps with
  | nil =>
    intro st st' h
    simp only [recurseports_loop] at h
    cases h
    simp
  | cons d rest ih =>
    intro st st' h
    simp only [recurseports_loop] at h
    have hstep := edge_state_count_ge cfg dcolor ports st d dep hne
    have hcnt : (d :: rest).count dep = rest.count dep + (if d = dep then 1 else 0) := by
      rw [List.count_cons]
      simp only [beq_iff_eq]
    split at h
    · have htail := ih _ _ h
      omega
    · split at h
      · exact Option.noConfusion h
      · rename_i st5 hst5
        have hmid : (edge_state cfg dcolor ports st d).edges.count
              ⟨fullname2port ports, fullname2port dep, dcolor⟩
            ≤ st5.edges.count ⟨fullname2port ports, fullname2port dep, dcolor⟩ := by
          have hext := hr _ _ _ _ hst5
          have : (fresh_state cfg (edge_state cfg dcolor ports st d) d).edges.count
                ⟨fullname2port ports, fullname2port dep, dcolor⟩
              ≤ st5.edges.count ⟨fullname2port ports, fullname2port dep, dcolor⟩ :=
            extends_edges_count_le hext _
          rw [fresh_state_edges] at this
          exact this
        have htail := ih _ _ h
        omega

theorem recurseports_edge_count (cfg : Cfg) (dkind dcolor : String)
    (fuel : Nat) (st : St) (ports : String) (flavor : Option String) (mr : Int)
    (st' : St) (dep : String)
    (h : recurseports cfg dkind dcolor fuel st ports flavor mr = some st')
    (hmr : mr ≠ 0)
    (hne : fullname2port dep ≠ pkg ∨ cfg.with_pkg = true) :
    st.edges.count ⟨fullname2port ports, fullname2port dep, dcolor⟩
        + (cfg.oracle.deps (flavorname2port ports) dkind flavor).count dep
      ≤ st'.edges.count ⟨fullname2port ports, fullname2port dep, dcolor⟩ := by
  cases fuel with
  | zero => exact absurd h (by simp [recurseports])
  | succ f =>
    simp only [recurseports] at h
    rw [if_neg hmr] at h
    have := loop_edge_count cfg dcolor
      (fun s p m => recurseports cfg dkind dcolor f s p flavor m)
      (fun s p m s' hs => recurseports_extends cfg dkind dcolor f s p flavor m s' hs)
      ports mr dep hne _ _ _ h
    rw [expand_state_edges] at this
    exact this

theorem mem_of_count_pos {α : Type} [DecidableEq α] {l : List α} {a : α}
    (h : 0 < l.count a) : a ∈ l := by
  by_contra hna
  rw [List.count_eq_zero.mpr hna] at h
  exact Nat.lt_irrefl 0 h

theorem count_pos_of_mem {α : Type} [DecidableEq α] {l : List α} {a : α}
    (h : a ∈ l) : 0 < l.count a :=
  Nat.pos_of_ne_zero (fun h0 => (List.count_eq_zero.mp h0) h)

/-! ### Each name is expanded at most once

`printed` logs exactly the expansions whose body runs (the verbose
`print(ports)` at lines 112–113 is executed once per `_recurseports` call
that passes the depth check).  The invariants below show a name already in
`self.all_ports` is never expanded again, and no name is expanded twice. -/

/-- Across one `_recurseports` call on `root`: the new prints contain `root`
at most once, any other name at most once, never a name that was already
visited, and every printed non-root name ends up visited. -/
def PrintInv (root : String) (s t : St) : Prop :=
  ∃ tl, t.printed = s.printed ++ tl ∧
    tl.count root ≤ 1 ∧
    (∀ e, e ≠ root → tl.count e ≤ 1) ∧
    (∀ e, e ≠ root → e ∈ s.all_ports → tl.count e = 0) ∧
    (∀ e, e ≠ root → 1 ≤ tl.count e → e ∈ t.all_ports)

/-- Same bundle for the dependency loop of a call on `ports`. -/
def LoopPrintInv (ports : String) (s t : St) : Prop :=
  ∃ tl, t.printed = s.printed ++ tl ∧
    (∀ e, tl.count e ≤ 1) ∧
    (∀ e, e ∈ s.all_ports ∨ e = ports → tl.count e = 0) ∧
    (∀ e, 1 ≤ tl.count e → e ∈ t.all_ports)

theorem loop_print_inv (cfg : Cfg) (dcolor : String)
    (r : St → String → Int → Option St)
    (hrext : ∀ s p m s', r s p m = some s' → Extends s s')
    (hrinv : ∀ s p m s', r s p m = some s' → PrintInv p s s')
    (ports : String) (mr : Int) :
    ∀ deps st st', recurseports_loop cfg dcolor r ports mr st deps = some st' →
      LoopPrintInv ports st st' := by
  intro deps
  induction deps with
  | nil =>
    intro st st' h
    simp only [recurseports_loop] at h
    cases h
    exact ⟨[], by simp, by simp, by simp, by simp⟩
  | cons d rest ih =>
    intro st st' h
    simp only [recurseports_loop] at h
    split at h
    · rename_i hmem
      obtain ⟨tl, hp, hle, hz, hm⟩ := ih _ _ h
      refine ⟨tl, ?_, hle, ?_, hm⟩
      · rw [hp, edge_state_printed]
      · intro e he
        refine hz e ?_
        rcases he with he | he
        · exact Or.inl (by rw [edge_state_all_ports]; exact List.mem_append_left _ he)
        · exact Or.inr he
    · rename_i hmem
      split at h
      · exact Option.noConfusion h
      · rename_i st5 hst5
        rw [edge_state_all_ports] at hmem
        obtain ⟨t1, hp1, hc1r, hc1, hz1, hm1⟩ := hrinv _ _ _ _ hst5
        obtain ⟨t2, hp2, hc2, hz2, hm2⟩ := ih _ _ h
        have hext5 := hrext _ _ _ _ hst5
        have hextloop := loop_extends cfg dcolor r hrext ports mr rest st5 st' h
        have hd5 : d ∈ st5.all_ports := by
          refine extends_mem_all_ports hext5 ?_
          rw [fresh_state_all_ports]
          exact List.mem_append_right _ (List.mem_singleton.mpr rfl)
        refine ⟨t1 ++ t2, ?_, ?_, ?_, ?_⟩
        · rw [hp2, hp1, fresh_state_printed, edge_state_printed, List.append_assoc]
        · intro e
          rw [List.count_append]
          by_cases hed : e = d
          · subst hed
            have h2z : t2.count e = 0 := hz2 e (Or.inl hd5)
            omega
          · have h1 := hc1 e hed
            by_cases hge : 1 ≤ t1.count e
            · have he5 : e ∈ st5.all_ports := hm1 e hed hge
              have h2z : t2.count e = 0 := hz2 e (Or.inl he5)
              omega
            · have h1z : t1.count e = 0 := by omega
              have h2 := hc2 e
              omega
        · intro e he
          rw [List.count_append]
          have hest2 : e ∈ st.all_ports ++ [ports] := by
            rcases he with he | he
            · exact List.mem_append_left _ he
            · exact he ▸ List.mem_append_right _ (List.mem_singleton.mpr rfl)
          have hed : e ≠ d := fun hed => hmem (hed ▸ hest2)
          have h1 : t1.count e = 0 := by
            refine hz1 e hed ?_
            rw [fresh_state_all_ports, edge_state_all_ports]
            exact List.mem_append_left _ hest2
          have h2 : t2.count e = 0 := by
            refine hz2 e (Or.inl ?_)
            refine extends_mem_all_ports hext5 ?_
            rw [fresh_state_all_ports, edge_state_all_ports]
            exact List.mem_append_left _ hest2
          omega
        · intro e hge
          rw [List.count_append] at hge
          by_cases hge2 : 1 ≤ t2.count e
          · exact hm2 e hge2
          · have h2z : t2.count e = 0 := by omega
            have hge1 : 1 ≤ t1.count e := by omega
            by_cases hed : e = d
            · subst hed
              exact extends_mem_all_ports hextloop hd5
            · exact extends_mem_all_ports hextloop (hm1 e hed hge1)

theorem count_single_ne {e p : String} (h : e ≠ p) :
    ([p] : List String).count e = 0 :=
  List.count_eq_zero.mpr (by simp [h])

theorem recurseports_print_inv (cfg : Cfg) (dkind dcolor : String) :
    ∀ fuel st ports flavor mr st',
      recurseports cfg dkind dcolor fuel st ports flavor mr = some st' →
      PrintInv ports st st' := by
  intro fuel
  induction fuel with
  | zero =>
    intro st ports flavor mr st' h
    exact absurd h (by simp [recurseports])
  | succ f ih =>
    intro st ports flavor mr st' h
    simp only [recurseports] at h
    split at h
    · cases h
      exact ⟨[], by simp, by simp, by simp, by simp, by simp⟩
    · obtain ⟨t2, hp2, hc2, hz2, hm2⟩ := loop_print_inv cfg dcolor _
        (fun s p m s' hs => recurseports_extends cfg dkind dcolor f s p flavor m s' hs)
        (fun s p m s' hs => ih s p flavor m s' hs) ports mr _ _ _ h
      have hone : ∀ e, e ≠ ports → (if cfg.verbose then [ports] else []).count e = 0 := by
        intro e he
        split
        · exact count_single_ne he
        · simp
      refine ⟨(if cfg.verbose then [ports] else []) ++ t2, ?_, ?_, ?_, ?_, ?_⟩
      · rw [hp2, expand_state_printed, List.append_assoc]
      · rw [List.count_append]
        have h2z : t2.count ports = 0 := hz2 ports (Or.inr rfl)
        have h1 : (if cfg.verbose then [ports] else []).count ports ≤ 1 := by
          split <;> simp
        omega
      · intro e he
        rw [List.count_append]
        have h1 := hone e he
        have h2 := hc2 e
        omega
      · intro e he hmem
        rw [List.count_append]
        have h1 := hone e he
        have h2 : t2.count e = 0 :=
          hz2 e (Or.inl (by rw [expand_state_all_ports]; exact hmem))
        omega
      · intro e he hge
        rw [List.count_append] at hge
        have h1 := hone e he
        exact hm2 e (by omega)

/-! ### Claim C9 -/

/-- C9: when the oracle lists the same dependency twice for an expanded
package, the traversal emits the corresponding edge once per occurrence
(at least twice), but the dependency's subtree is expanded at most once —
the new expansion log (`printed`, populated when verbose) gains at most one
entry for it, because the second occurrence is found in `self.all_ports`
(appended at line 144 before the first recursion) and is not recursed
into, while its edge (line 141) is still recorded. -/
theorem claim9_two_edges_one_expansion (cfg : Cfg) (dkind dcolor : String)
    (fuel : Nat) (st : St) (ports : String) (flavor : Option String) (mr : Int)
    (st' : St) (dep : String)
    (h : recurseports cfg dkind dcolor fuel st ports flavor mr = some st')
    (hmr : mr ≠ 0)
    (hdup : 2 ≤ (cfg.oracle.deps (flavorname2port ports) dkind flavor).count dep)
    (hne : fullname2port dep ≠ pkg ∨ cfg.with_pkg = true)
    (hdp : dep ≠ ports) :
    st.edges.count ⟨fullname2port ports, fullname2port dep, dcolor⟩ + 2
        ≤ st'.edges.count ⟨fullname2port ports, fullname2port dep, dcolor⟩ ∧
    ∃ tl, st'.printed = st.printed ++ tl ∧ tl.count dep ≤ 1 := by
  constructor
  · have hc := recurseports_edge_count cfg dkind dcolor fuel st ports flavor mr
      st' dep h hmr hne
    omega
  · obtain ⟨tl, hp, -, hc, -, -⟩ :=
      recurseports_print_inv cfg dkind dcolor fuel st ports flavor mr st' h
    exact ⟨tl, hp, hc dep hdp⟩

/-- Oracle for the C9 witness: `a/b`'s dependency list contains `c/d`
twice. -/
def oracleC9 : Oracle where
  deps := fun dir _ _ =>
    if dir = "/usr/ports/a/b" then ["/usr/ports/c/d", "/usr/ports/c/d"] else []
  maintainer := fun _ => "m"

def cfgC9 : Cfg := { cfgC2 with verbose := true, oracle := oracleC9 }

/-- Witness for C9 on the duplicate-dependency oracle. -/
theorem claim9_witness :
    initSt.edges.count ⟨fullname2port "/usr/ports/a/b",
        fullname2port "/usr/ports/c/d", "#009999"⟩ + 2
      ≤ ((recurseports cfgC9 "build" "#009999" 5 initSt "/usr/ports/a/b" none
            (-1)).getD initSt).edges.count
          ⟨fullname2port "/usr/ports/a/b", fullname2port "/usr/ports/c/d", "#009999"⟩ ∧
    ∃ tl, ((recurseports cfgC9 "build" "#009999" 5 initSt "/usr/ports/a/b" none
        (-1)).getD initSt).printed = initSt.printed ++ tl ∧
      tl.count "/usr/ports/c/d" ≤ 1 :=
  claim9_two_edges_one_expansion cfgC9 "build" "#009999" 5 initSt
    "/usr/ports/a/b" none (-1) _ "/usr/ports/c/d"
    (by decide) (by decide) (by decide) (by decide) (by decide)

/-! ### The double node-add per recursed dependency -/

theorem append_cancel {α : Type} {a b c : List α} (h : a ++ b = a ++ c) :
    b = c := by
  induction a with
  | nil => simpa using h
  | cons x xs ih => exact ih (by simpa using h)

/-- Across one `_recurseports` call on `root` (verbose, unbounded depth):
the `_add_node` log grows by exactly twice the expansion log for every name
other than the root, and exactly once (with one expansion) for the root. -/
def AddRatio (root : String) (s t : St) : Prop :=
  ∃ tP tA, t.printed = s.printed ++ tP ∧ t.addNodeCalls = s.addNodeCalls ++ tA ∧
    (∀ e, e ≠ root → tA.count e = 2 * tP.count e) ∧
    tA.count root = 1 ∧ tP.count root = 1

/-- Same for the dependency loop: two `_add_node` executions per expansion,
for every name. -/
def LoopAddRatio (s t : St) : Prop :=
  ∃ tP tA, t.printed = s.printed ++ tP ∧ t.addNodeCalls = s.addNodeCalls ++ tA ∧
    (∀ e, tA.count e = 2 * tP.count e)

theorem loop_add_ratio (cfg : Cfg) (dcolor : String)
    (r : St → String → Int → Option St)
    (hrinv : ∀ s p m s', m < 0 → r s p m = some s' → AddRatio p s s')
    (ports : String) (mr : Int) (hmr : mr < 0) :
    ∀ deps st st', recurseports_loop cfg dcolor r ports mr st deps = some st' →
      LoopAddRatio st st' := by
  intro deps
  induction deps with
  | nil =>
    intro st st' h
    simp only [recurseports_loop] at h
    cases h
    exact ⟨[], [], by simp, by simp, by simp⟩
  | cons d rest ih =>
    intro st st' h
    simp only [recurseports_loop] at h
    split at h
    · obtain ⟨tP, tA, hp, ha, hra⟩ := ih _ _ h
      refine ⟨tP, tA, ?_, ?_, hra⟩
      · rw [hp, edge_state_printed]
      · rw [ha, edge_state_addNodeCalls]
    · split at h
      · exact Option.noConfusion h
      · rename_i st5 hst5
        have hm1 : mr - 1 < 0 := by omega
        obtain ⟨t1P, t1A, hp1, ha1, hr1, ha1d, hp1d⟩ := hrinv _ _ _ _ hm1 hst5
        obtain ⟨t2P, t2A, hp2, ha2, hr2⟩ := ih _ _ h
        refine ⟨t1P ++ t2P, [d] ++ t1A ++ t2A, ?_, ?_, ?_⟩
        · rw [hp2, hp1, fresh_state_printed, edge_state_printed, List.append_assoc]
        · rw [ha2, ha1, fresh_state_addNodeCalls, edge_state_addNodeCalls]
          simp [List.append_assoc]
        · intro e
          rw [List.count_append, List.count_append, List.count_append]
          by_cases hed : e = d
          · subst hed
            have h0 : ([e] : List String).count e = 1 := by simp
            have h2 := hr2 e
            omega
          · have h1 := hr1 e hed
            have h2 := hr2 e
            have h0 := count_single_ne hed
            omega

theorem recurseports_add_ratio (cfg : Cfg) (hv : cfg.verbose = true)
    (dkind dcolor : String) :
    ∀ fuel st ports flavor mr st', mr < 0 →
      recurseports cfg dkind dcolor fuel st ports flavor mr = some st' →
      AddRatio ports st st' := by
  intro fuel
  induction fuel with
  | zero =>
    intro st ports flavor mr st' hmr h
    exact absurd h (by simp [recurseports])
  | succ f ih =>
    intro st ports flavor mr st' hmr h
    simp only [recurseports] at h
    rw [if_neg (by omega : ¬mr = 0)] at h
    obtain ⟨t2P, t2A, hp2, ha2, hr2⟩ := loop_add_ratio cfg dcolor _
      (fun s p m s' hm hs => ih s p flavor m s' hm hs) ports mr hmr _ _ _ h
    obtain ⟨t2Q, hp2', -, hz', -⟩ := loop_print_inv cfg dcolor _
      (fun s p m s' hs => recurseports_extends cfg dkind dcolor f s p flavor m s' hs)
      (fun s p m s' hs => recurseports_print_inv cfg dkind dcolor f s p flavor m s' hs)
      ports mr _ _ _ h
    have hteq : t2P = t2Q := append_cancel (hp2.symm.trans hp2')
    have hz2 : t2P.count ports = 0 := by
      rw [hteq]
      exact hz' ports (Or.inr rfl)
    refine ⟨[ports] ++ t2P, [ports] ++ t2A, ?_, ?_, ?_, ?_, ?_⟩
    · rw [hp2, expand_state_printed, hv]
      simp [List.append_assoc]
    · rw [ha2, expand_state_addNodeCalls, List.append_assoc]
    · intro e he
      rw [List.count_append, List.count_append]
      have h0 := count_single_ne he
      have h2 := hr2 e
      omega
    · rw [List.count_append]
      have h1 : ([ports] : List String).count ports = 1 := by simp
      have h2 := hr2 ports
      omega
    · rw [List.count_append]
      have h1 : ([ports] : List String).count ports = 1 := by simp
      omega

theorem maintainer_map_recurseports (cfg : Cfg) (hab : cfg.abandoned = true)
    (dkind dcolor : String) (fuel : Nat) (st : St) (ports : String)
    (flavor : Option String) (mr : Int) (st' : St)
    (h : recurseports cfg dkind dcolor fuel st ports flavor mr = some st') :
    ∃ l, st'.addNodeCalls = st.addNodeCalls ++ l ∧
      st'.maintainerCalls = st.maintainerCalls ++ l.map flavorname2port := by
  refine recurseports_preserves cfg
    (fun a b => ∃ l, b.addNodeCalls = a.addNodeCalls ++ l ∧
      b.maintainerCalls = a.maintainerCalls ++ l.map flavorname2port)
    ?_ ?_ ?_ ?_ ?_ ?_ ?_ dkind dcolor fuel st ports flavor mr st' h
  · exact fun s => ⟨[], by simp, by simp⟩
  · rintro a b c ⟨l1, e1, f1⟩ ⟨l2, e2, f2⟩
    exact ⟨l1 ++ l2, by rw [e2, e1, List.append_assoc],
      by rw [f2, f1, List.map_append, List.append_assoc]⟩
  · exact fun s x => ⟨[], by simp, by simp⟩
  · exact fun s pn dn col hg => ⟨[], by simp, by simp⟩
  · intro s p
    refine ⟨[p], by rw [add_node_addNodeCalls], ?_⟩
    rw [add_node_maintainerCalls, hab]
    simp
  · exact fun s x => ⟨[], by simp, by simp⟩
  · exact fun s d => ⟨[], by simp, by simp⟩

/-! ### Claim C10 -/

/-- C10 (implicit): a dependency the traversal recurses into with remaining
budget ≠ 0 has `_add_node` executed twice — once at line 143 just before
the recursive call and once at line 117 on entry to it.  With the unbounded
sentinel (`mr < 0`, so every remaining budget is nonzero) and verbose
logging (so `printed` records exactly the expansions that were entered),
the `_add_node` log grows by exactly twice the expansion log for every name
other than the root (which gets one call and one expansion); and when the
maintainer check is enabled, the maintainer-oracle log is the
flavor-stripped image of the `_add_node` log, so the maintainer oracle is
queried twice for each such dependency within one pass. -/
theorem claim10_double_add_node (cfg : Cfg) (hv : cfg.verbose = true)
    (dkind dcolor : String) (fuel : Nat) (st : St) (ports : String)
    (flavor : Option String) (mr : Int) (hmr : mr < 0) (st' : St)
    (h : recurseports cfg dkind dcolor fuel st ports flavor mr = some st') :
    ∃ tP tA, st'.printed = st.printed ++ tP ∧
      st'.addNodeCalls = st.addNodeCalls ++ tA ∧
      (∀ e, e ≠ ports → tA.count e = 2 * tP.count e) ∧
      tA.count ports = 1 ∧ tP.count ports = 1 ∧
      (cfg.abandoned = true →
        st'.maintainerCalls = st.maintainerCalls ++ tA.map flavorname2port) := by
  obtain ⟨tP, tA, hp, ha, hra, har, hpr⟩ :=
    recurseports_add_ratio cfg hv dkind dcolor fuel st ports flavor mr st' hmr h
  refine ⟨tP, tA, hp, ha, hra, har, hpr, ?_⟩
  intro hab
  obtain ⟨l, hl1, hl2⟩ := maintainer_map_recurseports cfg hab dkind dcolor
    fuel st ports flavor mr st' h
  have hleq : l = tA := append_cancel (hl1.symm.trans ha)
  rw [hl2, hleq]

/-- Oracle for the C10 witness: `a/b → c/d`, no further dependencies. -/
def oracleC10 : Oracle where
  deps := fun dir _ _ =>
    if dir = "/usr/ports/a/b" then ["/usr/ports/c/d"] else []
  maintainer := fun _ => "ports@FreeBSD.org"

def cfgC10 : Cfg := { cfgC2 with verbose := true, abandoned := true, oracle := oracleC10 }

/-- Witness for C10. -/
theorem claim10_witness :
    ∃ tP tA,
      ((recurseports cfgC10 "build" "#009999" 5 initSt "/usr/ports/a/b" none
          (-1)).getD initSt).printed = initSt.printed ++ tP ∧
      ((recurseports cfgC10 "build" "#009999" 5 initSt "/usr/ports/a/b" none
          (-1)).getD initSt).addNodeCalls = initSt.addNodeCalls ++ tA ∧
      (∀ e, e ≠ "/usr/ports/a/b" → tA.count e = 2 * tP.count e) ∧
      tA.count "/usr/ports/a/b" = 1 ∧ tP.count "/usr/ports/a/b" = 1 ∧
      (cfgC10.abandoned = true →
        ((recurseports cfgC10 "build" "#009999" 5 initSt "/usr/ports/a/b" none
            (-1)).getD initSt).maintainerCalls
          = initSt.maintainerCalls ++ tA.map flavorname2port) :=
  claim10_double_add_node cfgC10 rfl "build" "#009999" 5 initSt
    "/usr/ports/a/b" none (-1) (by decide) _ (by decide)

/-! ### Claim C4 -/

/-- The shared-subtree oracle for C4: `x/a → x/b → x/c` for **both** the
build and the run dependency kind. -/
def oracleC4 : Oracle where
  deps := fun dir _ _ =>
    if dir = "/usr/ports/x/a" then ["/usr/ports/x/b"]
    else if dir = "/usr/ports/x/b" then ["/usr/ports/x/c"]
    else []
  maintainer := fun _ => "m"

def cfgC4 : Cfg where
  localbase := "/usr/ports"
  port := "x/a"
  flavor := none
  with_pkg := false
  verbose := false
  recursion := -1
  www := none
  suffix := ""
  build := true
  run := true
  abandoned := false
  oracle := oracleC4

/-- C4 fails as stated: the two passes do *not* each get their own visited
set — `self.all_ports` is instance state shared by both passes.  With
`x/a → x/b → x/c` under both kinds, the run pass does not re-expand `x/b`
(it is already in `all_ports` from the build pass), so although both the
build and the run relation hold between `x/b` and `x/c` — the build edge is
in the graph and the run oracle lists `x/c` for `x/b` — no run-colored edge
`x/b → x/c` is ever emitted. -/
theorem claim4_counterexample :
    (build_graph cfgC4 6).map St.edges
        = some [⟨"x/a", "x/b", "#009999"⟩, ⟨"x/b", "x/c", "#009999"⟩,
                ⟨"x/a", "x/b", "#990000"⟩] ∧
    "/usr/ports/x/c" ∈ oracleC4.deps "/usr/ports/x/b" "run" none ∧
    (⟨"x/b", "x/c", "#990000"⟩ : GEdge) ∉ ((build_graph cfgC4 6).getD initSt).edges := by
  decide

/-- C4 (amended): when both passes are requested, both start from the full
depth budget and write into the same graph, but they share the single
visited list `self.all_ports`, which is not reset between passes.  The root
itself is expanded unconditionally by each pass, so edges of both colors are
guaranteed for the root's direct dependencies; deeper packages already
visited by the build pass are not re-expanded by the run pass, so
run-colored edges out of them may be missing (see the counterexample). -/
theorem claim4_amended_root_edges_both_colors (cfg : Cfg)
    (hb : cfg.build = true) (hrun : cfg.run = true)
    (hmr : cfg.recursion ≠ 0) (fuel : Nat) (st' : St)
    (h : build_graph cfg fuel = some st')
    (depB depR : String)
    (hdB : depB ∈ cfg.oracle.deps (flavorname2port (rootports cfg)) "build" cfg.flavor)
    (hneB : fullname2port depB ≠ pkg ∨ cfg.with_pkg = true)
    (hdR : depR ∈ cfg.oracle.deps (flavorname2port (rootports cfg)) "run" cfg.flavor)
    (hneR : fullname2port depR ≠ pkg ∨ cfg.with_pkg = true) :
    (⟨fullname2port (rootports cfg), fullname2port depB, "#009999"⟩ : GEdge) ∈ st'.edges ∧
    (⟨fullname2port (rootports cfg), fullname2port depR, "#990000"⟩ : GEdge) ∈ st'.edges := by
  unfold build_graph at h
  rw [Option.bind_eq_some] at h
  obtain ⟨st1, h1, h2⟩ := h
  rw [if_pos hb] at h1
  rw [if_pos hrun] at h2
  have cb := recurseports_edge_count cfg "build" "#009999" fuel initSt
    (rootports cfg) cfg.flavor cfg.recursion st1 depB h1 hmr hneB
  have cbpos : 0 < st1.edges.count
      ⟨fullname2port (rootports cfg), fullname2port depB, "#009999"⟩ := by
    have hc := count_pos_of_mem hdB
    have hz : initSt.edges.count
        ⟨fullname2port (rootports cfg), fullname2port depB, "#009999"⟩ = 0 := rfl
    omega
  have ext2 := recurseports_extends cfg "run" "#990000" fuel st1
    (rootports cfg) cfg.flavor cfg.recursion st' h2
  have cr := recurseports_edge_count cfg "run" "#990000" fuel st1
    (rootports cfg) cfg.flavor cfg.recursion st' depR h2 hmr hneR
  constructor
  · refine mem_of_count_pos ?_
    have := extends_edges_count_le ext2
      (⟨fullname2port (rootports cfg), fullname2port depB, "#009999"⟩ : GEdge)
    omega
  · refine mem_of_count_pos ?_
    have hc := count_pos_of_mem hdR
    omega

/-- Witness for the amended C4 on the shared-subtree oracle. -/
theorem claim4_witness :
    (⟨fullname2port (rootports cfgC4), fullname2port "/usr/ports/x/b", "#009999"⟩ : GEdge)
        ∈ ((build_graph cfgC4 6).getD initSt).edges ∧
    (⟨fullname2port (rootports cfgC4), fullname2port "/usr/ports/x/b", "#990000"⟩ : GEdge)
        ∈ ((build_graph cfgC4 6).getD initSt).edges :=
  claim4_amended_root_edges_both_colors cfgC4 rfl rfl (by decide) 6
    ((build_graph cfgC4 6).getD initSt) (by decide)
    "/usr/ports/x/b" "/usr/ports/x/b" (by decide) (by decide) (by decide) (by decide)

/-! ### Provenance of node and edge identifiers

The invariants below tie every emitted identifier to the traversal's raw
(possibly flavored) names: node identities and edge endpoints are
`_fullname2port` of those names (the `@flavor` suffix retained), while the
flavor-stripped `_flavorname2port` image appears only as the directory of
the depends-list and maintainer subprocess calls. -/

theorem extends_mem_addNodeCalls {s t : St} (h : Extends s t) {x : String}
    (hx : x ∈ s.addNodeCalls) : x ∈ t.addNodeCalls := by
  obtain ⟨-, -, -, -, -, -, ⟨l, hl⟩⟩ := h
  rw [hl]
  exact List.mem_append_left _ hx

theorem extends_mem_depsCalls {s t : St} (h : Extends s t)
    {q : String × String × Option String} (hq : q ∈ s.depsCalls) :
    q ∈ t.depsCalls := by
  obtain ⟨-, -, -, -, -, ⟨l, hl⟩, -⟩ := h
  rw [hl]
  exact List.mem_append_left _ hq

theorem extends_mem_printed {s t : St} (h : Extends s t) {x : String}
    (hx : x ∈ s.printed) : x ∈ t.printed := by
  obtain ⟨-, -, -, ⟨l, hl⟩, -, -, -⟩ := h
  rw [hl]
  exact List.mem_append_left _ hx

/-- The node `n` is `_fullname2port` of one of the names `_add_node` was
invoked on. -/
def NodeOk (t : St) (n : GNode) : Prop :=
  ∃ p, p ∈ t.addNodeCalls ∧ n.id = fullname2port p

/-- The edge `e` runs from `_fullname2port` of an expanded name — whose
flavor-stripped form is the directory of a recorded depends-list query — to
`_fullname2port` of a dependency line the oracle returned for that query. -/
def EdgeOk (cfg : Cfg) (dkind : String) (flavor : Option String)
    (t : St) (e : GEdge) : Prop :=
  ∃ ports, (flavorname2port ports, dkind, flavor) ∈ t.depsCalls ∧
    e.src = fullname2port ports ∧
    ∃ dep, dep ∈ cfg.oracle.deps (flavorname2port ports) dkind flavor ∧
      e.dst = fullname2port dep

/-- The depends-list query `q` ran in the flavor-stripped directory of an
expanded (logged) name. -/
def DepsOk (t : St) (q : String × String × Option String) : Prop :=
  ∃ p, p ∈ t.printed ∧ q.1 = flavorname2port p

theorem nodeok_mono {s t : St} (h : Extends s t) {n : GNode}
    (hn : NodeOk s n) : NodeOk t n := by
  obtain ⟨p, hp, hid⟩ := hn
  exact ⟨p, extends_mem_addNodeCalls h hp, hid⟩

theorem edgeok_mono (cfg : Cfg) (dkind : String) (flavor : Option String)
    {s t : St} (h : Extends s t) {e : GEdge}
    (he : EdgeOk cfg dkind flavor s e) : EdgeOk cfg dkind flavor t e := by
  obtain ⟨ports, hq, hsrc, dep, hd, hdst⟩ := he
  exact ⟨ports, extends_mem_depsCalls h hq, hsrc, dep, hd, hdst⟩

theorem depsok_mono {s t : St} (h : Extends s t)
    {q : String × String × Option String} (hq : DepsOk s q) : DepsOk t q := by
  obtain ⟨p, hp, h1⟩ := hq
  exact ⟨p, extends_mem_printed h hp, h1⟩

/-- Everything added between `s` and `t` has faithful provenance. -/
def IdInv (cfg : Cfg) (dkind : String) (flavor : Option String)
    (s t : St) : Prop :=
  (∀ n ∈ t.nodes, n ∈ s.nodes ∨ NodeOk t n) ∧
  (∀ e ∈ t.edges, e ∈ s.edges ∨ EdgeOk cfg dkind flavor t e) ∧
  (∀ q ∈ t.depsCalls, q ∈ s.depsCalls ∨ (cfg.verbose = true → DepsOk t q))

theorem idinv_refl (cfg : Cfg) (dkind : String) (flavor : Option String)
    (s : St) : IdInv cfg dkind flavor s s :=
  ⟨fun _ hn => Or.inl hn, fun _ he => Or.inl he, fun _ hq => Or.inl hq⟩

theorem loop_id_inv (cfg : Cfg) (dkind dcolor : String) (flavor : Option String)
    (r : St → String → Int → Option St)
    (hrext : ∀ s p m s', r s p m = some s' → Extends s s')
    (hrinv : ∀ s p m s', r s p m = some s' → IdInv cfg dkind flavor s s')
    (ports : String) (mr : Int) :
    ∀ deps st st',
      (∀ d ∈ deps, d ∈ cfg.oracle.deps (flavorname2port ports) dkind flavor) →
      ((flavorname2port ports, dkind, flavor) ∈ st.depsCalls) →
      recurseports_loop cfg dcolor r ports mr st deps = some st' →
      IdInv cfg dkind flavor st st' := by
  intro deps
  induction deps with
  | nil =>
    intro st st' hdeps hcall h
    simp only [recurseports_loop] at h
    cases h
    exact idinv_refl cfg dkind flavor st
  | cons d rest ih =>
    intro st st' hdeps hcall h
    simp only [recurseports_loop] at h
    split at h
    · -- already visited: continue from edge_state
      have hextRest := loop_extends cfg dcolor r hrext ports mr rest _ _ h
      have hib := ih _ _ (fun x hx => hdeps x (List.mem_cons_of_mem _ hx))
        (by rw [edge_state_depsCalls]; exact hcall) h
      refine ⟨?_, ?_, ?_⟩
      · intro n hn
        rcases hib.1 n hn with hn2 | hn2
        · rw [edge_state_nodes] at hn2
          exact Or.inl hn2
        · exact Or.inr hn2
      · intro e he
        rcases hib.2.1 e he with he2 | he2
        · rw [edge_state_edges] at he2
          rcases List.mem_append.mp he2 with he3 | he3
          · exact Or.inl he3
          · refine Or.inr ?_
            have he0 : e = ⟨fullname2port ports, fullname2port d, dcolor⟩ := by
              by_cases hg : fullname2port d ≠ pkg ∨ (fullname2port d = pkg ∧ cfg.with_pkg)
              · rw [if_pos hg, List.mem_singleton] at he3
                exact he3
              · rw [if_neg hg] at he3
                exact absurd he3 (List.not_mem_nil _)
            subst he0
            refine ⟨ports, ?_, rfl, d, hdeps d (List.mem_cons_self _ _), rfl⟩
            refine extends_mem_depsCalls hextRest ?_
            rw [edge_state_depsCalls]
            exact hcall
        · exact Or.inr he2
      · intro q hq
        rcases hib.2.2 q hq with hq2 | hq2
        · rw [edge_state_depsCalls] at hq2
          exact Or.inl hq2
        · exact Or.inr hq2
    · -- fresh dependency
      split at h
      · exact Option.noConfusion h
      · rename_i st5 hst5
        have hext5 := hrext _ _ _ _ hst5
        have hinv5 := hrinv _ _ _ _ hst5
        have hextRest := loop_extends cfg dcolor r hrext ports mr rest _ _ h
        have hcall4 : (flavorname2port ports, dkind, flavor)
            ∈ (fresh_state cfg (edge_state cfg dcolor ports st d) d).depsCalls := by
          rw [fresh_state_depsCalls, edge_state_depsCalls]
          exact hcall
        have hib := ih _ _ (fun x hx => hdeps x (List.mem_cons_of_mem _ hx))
          (extends_mem_depsCalls hext5 hcall4) h
        have hnodes4 : ∀ n,
            n ∈ (fresh_state cfg (edge_state cfg dcolor ports st d) d).nodes →
            n ∈ st.nodes ∨ NodeOk st' n := by
          intro n hn
          rw [fresh_state_nodes, add_node_nodes, edge_state_nodes] at hn
          rcases List.mem_append.mp hn with hn2 | hn2
          · exact Or.inl hn2
          · refine Or.inr ?_
            by_cases hg : fullname2port d ≠ pkg ∨ (fullname2port d = pkg ∧ cfg.with_pkg)
            · rw [if_pos hg, List.mem_singleton] at hn2
              subst hn2
              refine ⟨d, ?_, rfl⟩
              refine extends_mem_addNodeCalls hextRest
                (extends_mem_addNodeCalls hext5 ?_)
              rw [fresh_state_addNodeCalls]
              exact List.mem_append_right _ (List.mem_singleton.mpr rfl)
            · rw [if_neg hg] at hn2
              exact absurd hn2 (List.not_mem_nil _)
        have hedges4 : ∀ e,
            e ∈ (fresh_state cfg (edge_state cfg dcolor ports st d) d).edges →
            e ∈ st.edges ∨ EdgeOk cfg dkind flavor st' e := by
          intro e he
          rw [fresh_state_edges, edge_state_edges] at he
          rcases List.mem_append.mp he with he2 | he2
          · exact Or.inl he2
          · refine Or.inr ?_
            have he0 : e = ⟨fullname2port ports, fullname2port d, dcolor⟩ := by
              by_cases hg : fullname2port d ≠ pkg ∨ (fullname2port d = pkg ∧ cfg.with_pkg)
              · rw [if_pos hg, List.mem_singleton] at he2
                exact he2
              · rw [if_neg hg] at he2
                exact absurd he2 (List.not_mem_nil _)
            subst he0
            refine ⟨ports, ?_, rfl, d, hdeps d (List.mem_cons_self _ _), rfl⟩
            exact extends_mem_depsCalls hextRest (extends_mem_depsCalls hext5 hcall4)
        refine ⟨?_, ?_, ?_⟩
        · intro n hn
          rcases hib.1 n hn with hn2 | hn2
          · rcases hinv5.1 n hn2 with hn3 | hn3
            · exact hnodes4 n hn3
            · exact Or.inr (nodeok_mono hextRest hn3)
          · exact Or.inr hn2
        · intro e he
          rcases hib.2.1 e he with he2 | he2
          · rcases hinv5.2.1 e he2 with he3 | he3
            · exact hedges4 e he3
            · exact Or.inr (edgeok_mono cfg dkind flavor hextRest he3)
          · exact Or.inr he2
        · intro q hq
          rcases hib.2.2 q hq with hq2 | hq2
          · rcases hinv5.2.2 q hq2 with hq3 | hq3
            · rw [fresh_state_depsCalls, edge_state_depsCalls] at hq3
              exact Or.inl hq3
            · exact Or.inr (fun hv => depsok_mono hextRest (hq3 hv))
          · exact Or.inr hq2

theorem recurseports_id_inv (cfg : Cfg) (dkind dcolor : String) :
    ∀ fuel st ports flavor mr st',
      recurseports cfg dkind dcolor fuel st ports flavor mr = some st' →
      IdInv cfg dkind flavor st st' := by
  intro fuel
  induction fuel with
  | zero =>
    intro st ports flavor mr st' h
    exact absurd h (by simp [recurseports])
  | succ f ih =>
    intro st ports flavor mr st' h
    simp only [recurseports] at h
    split at h
    · cases h
      exact idinv_refl cfg dkind flavor st
    · have hextLoop := loop_extends cfg dcolor _
        (fun s p m s' hs => recurseports_extends cfg dkind dcolor f s p flavor m s' hs)
        ports mr _ _ _ h
      have hcall : (flavorname2port ports, dkind, flavor)
          ∈ (expand_state cfg dkind st ports flavor).depsCalls := by
        rw [expand_state_depsCalls]
        exact List.mem_append_right _ (List.mem_singleton.mpr rfl)
      have hl := loop_id_inv cfg dkind dcolor flavor _
        (fun s p m s' hs => recurseports_extends cfg dkind dcolor f s p flavor m s' hs)
        (fun s p m s' hs => ih s p flavor m s' hs)
        ports mr _ _ _ (fun d hd => hd) hcall h
      refine ⟨?_, ?_, ?_⟩
      · intro n hn
        rcases hl.1 n hn with hn2 | hn2
        · rw [expand_state_nodes] at hn2
          rcases List.mem_append.mp hn2 with hn3 | hn3
          · exact Or.inl hn3
          · refine Or.inr ?_
            by_cases hg : fullname2port ports ≠ pkg ∨ (fullname2port ports = pkg ∧ cfg.with_pkg)
            · rw [if_pos hg, List.mem_singleton] at hn3
              subst hn3
              refine ⟨ports, ?_, rfl⟩
              refine extends_mem_addNodeCalls hextLoop ?_
              rw [expand_state_addNodeCalls]
              exact List.mem_append_right _ (List.mem_singleton.mpr rfl)
            · rw [if_neg hg] at hn3
              exact absurd hn3 (List.not_mem_nil _)
        · exact Or.inr hn2
      · intro e he
        rcases hl.2.1 e he with he2 | he2
        · rw [expand_state_edges] at he2
          exact Or.inl he2
        · exact Or.inr he2
      · intro q hq
        rcases hl.2.2 q hq with hq2 | hq2
        · rw [expand_state_depsCalls] at hq2
          rcases List.mem_append.mp hq2 with hq3 | hq3
          · exact Or.inl hq3
          · rw [List.mem_singleton] at hq3
            subst hq3
            refine Or.inr (fun hv => ⟨ports, ?_, rfl⟩)
            refine extends_mem_printed hextLoop ?_
            rw [expand_state_printed, hv]
            simp
        · exact Or.inr hq2

/-! ### Claim C3 -/

/-- An oracle with no dependencies at all. -/
def oracleC3 : Oracle where
  deps := fun _ _ _ => []
  maintainer := fun _ => "m"

def cfgC3 : Cfg where
  localbase := "/usr/ports"
  port := "devel/foo"
  flavor := some "py39"
  with_pkg := false
  verbose := false
  recursion := -1
  www := none
  suffix := ""
  build := true
  run := false
  abandoned := false
  oracle := oracleC3

/-- C3 fails as stated: node (and edge-endpoint) identities come from
`_fullname2port`, which keeps the `@flavor` suffix.  With root
`devel/foo@py39` the single emitted node has identity `devel/foo@py39` —
not the flavor-stripped canonical `devel/foo` (stripping it changes it) —
while the depends-list oracle *was* queried at the stripped directory. -/
theorem claim3_counterexample :
    (build_graph cfgC3 2).map (fun s => s.nodes.map GNode.id)
        = some ["devel/foo@py39"] ∧
    flavorname2port "devel/foo@py39" ≠ "devel/foo@py39" ∧
    (build_graph cfgC3 2).map St.depsCalls
        = some [("/usr/ports/devel/foo", "build", some "py39")] := by
  decide

/-- C3 (amended): for every configuration and every graph `build_graph`
produces, (i) every node's identity is `_fullname2port` of one of the
(possibly flavored) names `_add_node` was invoked on — the `@flavor` suffix
is retained, not stripped; (ii) every edge runs from `_fullname2port` of an
expanded name — whose *flavor-stripped* form is the directory of a recorded
depends-list query — to `_fullname2port` of a dependency line the oracle
returned for that query, so flavored dependencies also keep their suffix in
edge endpoints; (iii) with verbose logging, every depends-list query ran in
the flavor-stripped directory of an expanded name; and (iv) with the
maintainer check enabled, the maintainer-query log is exactly the
flavor-stripped image of the `_add_node` argument log.  The flavor thus
only ever influences which directory the oracle is asked about, never a
node or edge identity. -/
theorem claim3_amended_fullname_identity (cfg : Cfg) (fuel : Nat) (st' : St)
    (h : build_graph cfg fuel = some st') :
    (∀ n ∈ st'.nodes, ∃ p, p ∈ st'.addNodeCalls ∧ n.id = fullname2port p) ∧
    (∀ e ∈ st'.edges, ∃ ports kind,
        (flavorname2port ports, kind, cfg.flavor) ∈ st'.depsCalls ∧
        e.src = fullname2port ports ∧
        ∃ dep, dep ∈ cfg.oracle.deps (flavorname2port ports) kind cfg.flavor ∧
          e.dst = fullname2port dep) ∧
    (cfg.verbose = true →
      ∀ q ∈ st'.depsCalls, ∃ p, p ∈ st'.printed ∧ q.1 = flavorname2port p) ∧
    (cfg.abandoned = true →
      st'.maintainerCalls = st'.addNodeCalls.map flavorname2port) := by
  unfold build_graph at h
  rw [Option.bind_eq_some] at h
  obtain ⟨st1, h1, h2⟩ := h
  have hp1 : IdInv cfg "build" cfg.flavor initSt st1 ∧ Extends initSt st1 := by
    split at h1
    · exact ⟨recurseports_id_inv cfg "build" "#009999" fuel initSt _ _ _ st1 h1,
        recurseports_extends cfg "build" "#009999" fuel initSt _ _ _ st1 h1⟩
    · cases h1
      exact ⟨idinv_refl _ _ _ _, extends_refl _⟩
  have hp2 : IdInv cfg "run" cfg.flavor st1 st' ∧ Extends st1 st' := by
    split at h2
    · exact ⟨recurseports_id_inv cfg "run" "#990000" fuel st1 _ _ _ st' h2,
        recurseports_extends cfg "run" "#990000" fuel st1 _ _ _ st' h2⟩
    · cases h2
      exact ⟨idinv_refl _ _ _ _, extends_refl _⟩
  obtain ⟨inv1, ext1⟩ := hp1
  obtain ⟨inv2, ext2⟩ := hp2
  refine ⟨?_, ?_, ?_, ?_⟩
  · intro n hn
    rcases inv2.1 n hn with hn2 | hn2
    · rcases inv1.1 n hn2 with hn3 | hn3
      · exact absurd hn3 (List.not_mem_nil _)
      · exact nodeok_mono ext2 hn3
    · exact hn2
  · intro e he
    rcases inv2.2.1 e he with he2 | he2
    · rcases inv1.2.1 e he2 with he3 | he3
      · exact absurd he3 (List.not_mem_nil _)
      · obtain ⟨ports, hq, hsrc, dep, hd, hdst⟩ :=
          edgeok_mono cfg "build" cfg.flavor ext2 he3
        exact ⟨ports, "build", hq, hsrc, dep, hd, hdst⟩
    · obtain ⟨ports, hq, hsrc, dep, hd, hdst⟩ := he2
      exact ⟨ports, "run", hq, hsrc, dep, hd, hdst⟩
  · intro hv q hq
    rcases inv2.2.2 q hq with hq2 | hq2
    · rcases inv1.2.2 q hq2 with hq3 | hq3
      · exact absurd hq3 (List.not_mem_nil _)
      · exact depsok_mono ext2 (hq3 hv)
    · exact hq2 hv
  · intro hab
    have hmid : st1.maintainerCalls = st1.addNodeCalls.map flavorname2port := by
      split at h1
      · obtain ⟨l1, e1, f1⟩ := maintainer_map_recurseports cfg hab "build" "#009999"
          fuel initSt _ _ _ st1 h1
        rw [e1, f1]
        simp [initSt]
      · cases h1
        rfl
    split at h2
    · obtain ⟨l2, e2, f2⟩ := maintainer_map_recurseports cfg hab "run" "#990000"
        fuel st1 _ _ _ st' h2
      rw [e2, f2, hmid, List.map_append]
    · cases h2
      exact hmid

/-- Oracle for the C3 witness: the flavored root's stripped directory
reports a *flavored* dependency `www/bar@py39`, which itself has none. -/
def oracleC3w : Oracle where
  deps := fun dir _ _ =>
    if dir = "/usr/ports/devel/foo" then ["/usr/ports/www/bar@py39"] else []
  maintainer := fun _ => "m"

def cfgC3w : Cfg := { cfgC3 with oracle := oracleC3w, verbose := true, abandoned := true }

/-- Witness for the amended C3, exercising a flavored root *and* a flavored
dependency edge, with verbose logging and the maintainer check enabled. -/
theorem claim3_witness :
    (∀ n ∈ ((build_graph cfgC3w 3).getD initSt).nodes,
      ∃ p, p ∈ ((build_graph cfgC3w 3).getD initSt).addNodeCalls ∧
        n.id = fullname2port p) ∧
    (∀ e ∈ ((build_graph cfgC3w 3).getD initSt).edges, ∃ ports kind,
        (flavorname2port ports, kind, cfgC3w.flavor)
            ∈ ((build_graph cfgC3w 3).getD initSt).depsCalls ∧
        e.src = fullname2port ports ∧
        ∃ dep, dep ∈ cfgC3w.oracle.deps (flavorname2port ports) kind cfgC3w.flavor ∧
          e.dst = fullname2port dep) ∧
    (cfgC3w.verbose = true →
      ∀ q ∈ ((build_graph cfgC3w 3).getD initSt).depsCalls,
        ∃ p, p ∈ ((build_graph cfgC3w 3).getD initSt).printed ∧
          q.1 = flavorname2port p) ∧
    (cfgC3w.abandoned = true →
      ((build_graph cfgC3w 3).getD initSt).maintainerCalls
        = ((build_graph cfgC3w 3).getD initSt).addNodeCalls.map flavorname2port) :=
  claim3_amended_fullname_identity cfgC3w 3 ((build_graph cfgC3w 3).getD initSt)
    (by decide)

/-! ### Claim C8 -/

theorem maintainer_off_recurseports (cfg : Cfg) (hab : cfg.abandoned = false)
    (dkind dcolor : String) (fuel : Nat) (st : St) (ports : String)
    (flavor : Option String) (mr : Int) (st' : St)
    (h : recurseports cfg dkind dcolor fuel st ports flavor mr = some st') :
    st'.maintainerCalls = st.maintainerCalls := by
  refine recurseports_preserves cfg (fun a b => b.maintainerCalls = a.maintainerCalls)
    (fun s => rfl) (fun a b c h1 h2 => h2.trans h1) ?_ ?_ ?_ ?_ ?_
    dkind dcolor fuel st ports flavor mr st' h
  · exact fun s x => rfl
  · exact fun s pn dn col hg => rfl
  · intro s p
    rw [add_node_maintainerCalls, hab]
    simp
  · exact fun s x => rfl
  · exact fun s d => rfl

theorem maintainer_off_build_graph (cfg : Cfg) (hab : cfg.abandoned = false)
    (fuel : Nat) (st' : St) (h : build_graph cfg fuel = some st') :
    st'.maintainerCalls = [] := by
  unfold build_graph at h
  rw [Option.bind_eq_some] at h
  obtain ⟨st1, h1, h2⟩ := h
  have e1 : st1.maintainerCalls = initSt.maintainerCalls := by
    split at h1
    · exact maintainer_off_recurseports cfg hab _ _ _ _ _ _ _ _ h1
    · cases h1
      rfl
  have e2 : st'.maintainerCalls = st1.maintainerCalls := by
    split at h2
    · exact maintainer_off_recurseports cfg hab _ _ _ _ _ _ _ _ h2
    · cases h2
      rfl
  rw [e2, e1]
  rfl

/-- C8: when the maintainer check is enabled (`abandoned`), `_add_node`
queries the maintainer oracle once for the flavor-stripped port and the
emitted node (if not suppressed) is red/bold exactly when the answer is the
placeholder `ports@FreeBSD.org`, black/filled otherwise; when the check is
disabled, `_add_node` leaves the maintainer-call log untouched, every
emitted node is black/filled, and over a whole `build_graph` run the
maintainer oracle is never invoked at all. -/
theorem claim8_maintainer_check (cfg : Cfg) (st : St) (ports : String)
    (fuel : Nat) (st' : St) (h : build_graph cfg fuel = some st') :
    (cfg.abandoned = true →
      (add_node cfg st ports).maintainerCalls
          = st.maintainerCalls ++ [flavorname2port ports] ∧
      ((add_node cfg st ports).nodes = st.nodes ∨
        (if cfg.oracle.maintainer (flavorname2port ports) = "ports@FreeBSD.org" then
          (add_node cfg st ports).nodes
            = st.nodes ++ [⟨fullname2port ports, node_url_of cfg ports, "red", "bold"⟩]
        else
          (add_node cfg st ports).nodes
            = st.nodes ++ [⟨fullname2port ports, node_url_of cfg ports, "black", "filled"⟩]))) ∧
    (cfg.abandoned = false →
      (add_node cfg st ports).maintainerCalls = st.maintainerCalls ∧
      ((add_node cfg st ports).nodes = st.nodes ∨
        (add_node cfg st ports).nodes
          = st.nodes ++ [⟨fullname2port ports, node_url_of cfg ports, "black", "filled"⟩]) ∧
      st'.maintainerCalls = []) := by
  constructor
  · intro hab
    constructor
    · rw [add_node_maintainerCalls, hab]
      simp
    · by_cases hgd : fullname2port ports ≠ pkg ∨ (fullname2port ports = pkg ∧ cfg.with_pkg)
      · right
        by_cases hm : cfg.oracle.maintainer (flavorname2port ports) = "ports@FreeBSD.org"
        · rw [if_pos hm, add_node_nodes, if_pos hgd]
          simp [node_color_style, hab, hm]
        · rw [if_neg hm, add_node_nodes, if_pos hgd]
          simp [node_color_style, hab, hm]
      · left
        rw [add_node_nodes, if_neg hgd]
        simp
  · intro hab
    refine ⟨?_, ?_, maintainer_off_build_graph cfg hab fuel st' h⟩
    · rw [add_node_maintainerCalls, hab]
      simp
    · by_cases hgd : fullname2port ports ≠ pkg ∨ (fullname2port ports = pkg ∧ cfg.with_pkg)
      · right
        rw [add_node_nodes, if_pos hgd]
        simp [node_color_style, hab]
      · left
        rw [add_node_nodes, if_neg hgd]
        simp

/-- Oracle for the C8 witness: `a/b` has the placeholder maintainer. -/
def oracleC8 : Oracle where
  deps := fun _ _ _ => []
  maintainer := fun d => if d = "/usr/ports/a/b" then "ports@FreeBSD.org" else "x@y.org"

def cfgC8 : Cfg := { cfgC2 with abandoned := true, oracle := oracleC8 }

/-- Witness for C8, on a port whose maintainer is the placeholder and with
the maintainer check enabled. -/
theorem claim8_witness :
    (cfgC8.abandoned = true →
      (add_node cfgC8 initSt "/usr/ports/a/b").maintainerCalls
          = initSt.maintainerCalls ++ [flavorname2port "/usr/ports/a/b"] ∧
      ((add_node cfgC8 initSt "/usr/ports/a/b").nodes = initSt.nodes ∨
        (if cfgC8.oracle.maintainer (flavorname2port "/usr/ports/a/b") = "ports@FreeBSD.org" then
          (add_node cfgC8 initSt "/usr/ports/a/b").nodes
            = initSt.nodes ++ [⟨fullname2port "/usr/ports/a/b",
                node_url_of cfgC8 "/usr/ports/a/b", "red", "bold"⟩]
        else
          (add_node cfgC8 initSt "/usr/ports/a/b").nodes
            = initSt.nodes ++ [⟨fullname2port "/usr/ports/a/b",
                node_url_of cfgC8 "/usr/ports/a/b", "black", "filled"⟩]))) ∧
    (cfgC8.abandoned = false →
      (add_node cfgC8 initSt "/usr/ports/a/b").maintainerCalls = initSt.maintainerCalls ∧
      ((add_node cfgC8 initSt "/usr/ports/a/b").nodes = initSt.nodes ∨
        (add_node cfgC8 initSt "/usr/ports/a/b").nodes
          = initSt.nodes ++ [⟨fullname2port "/usr/ports/a/b",
              node_url_of cfgC8 "/usr/ports/a/b", "black", "filled"⟩]) ∧
      ((build_graph cfgC8 3).getD initSt).maintainerCalls = []) :=
  claim8_maintainer_check cfgC8 initSt "/usr/ports/a/b" 3
    ((build_graph cfgC8 3).getD initSt) (by decide)

example : fullname2port "/usr/ports/devel/foo" = "devel/foo" := by decide
example : fullname2port "/usr/ports/devel/foo@py39" = "devel/foo@py39" := by decide
example : fullname2port "devel/foo" = "devel/foo" := by decide
example : flavorname2port "/usr/ports/devel/foo@py39" = "/usr/ports/devel/foo" := by decide
example : flavorname2port "devel/foo" = "devel/foo" := by decide
example : flavorname2port "a@b@c" = "a@b" := by decide

end Portgraph
